import Mathlib

/-!
# sigslot: link management between signals and slots

Shallow embedding of `include/sigslot/signal.h` and `include/sigslot/slot.h`.

Objects live at addresses (natural numbers).  A `signal*` and a `slot*` are
addresses in two separate address spaces.  The heap stores, field by field,
the member variables of the object at every address:

* `slots_ S`     is `signal::slots_` of the signal at address `S`
  (a `std::vector<Slot*>`, modelled as a list of slot addresses);
* `signals_ T`   is `slot::signals_` of the slot at address `T`
  (a `std::vector<Signal*>`, modelled as a list of signal addresses);
* `callback_ T`  is `slot::callback_` of the slot at address `T`
  (a `std::function`, `none` when it is empty).

Every member function becomes a function on heaps taking the address of
`this` as its first argument (`self`).
-/

namespace sigslot

/-! ## Memory -/

/-- Pointwise update of a field table: the value at address `i` becomes `v`. -/
def upd {α : Type} (f : Nat → α) (i : Nat) (v : α) : Nat → α :=
  fun j => if j = i then v else f j

/-- The member variables of all signal and slot objects, indexed by address. -/
structure Heap (Cb : Type) where
  /-- Member `signal::slots_`. -/
  slots_ : Nat → List Nat
  /-- Member `slot::signals_`. -/
  signals_ : Nat → List Nat
  /-- Member `slot::callback_`; `none` is an empty `std::function`. -/
  callback_ : Nat → Option Cb

/-- Heap in which every vector is empty and every callback is empty. -/
def Heap.fresh (Cb : Type) : Heap Cb :=
  ⟨fun _ => [], fun _ => [], fun _ => none⟩

/-! ## Vector helpers shared by both classes -/

/-- Index of the first element equal to `x`: the loop
`for (i = 0; i < v.size(); ++i) if (v[i] == x) return i;` with `none` for
"not found" (the source returns `-1` or falls out of the loop). -/
def indexOfFirst (x : Nat) : List Nat → Option Nat
  | [] => none
  | y :: ys => if y = x then some 0 else (indexOfFirst x ys).map (fun i => i + 1)

/-- The two statements `v[i] = v.back(); v.pop_back();`. -/
def swapWithBackAndPop (v : List Nat) (i : Nat) : List Nat :=
  match v.getLast? with
  | none => v
  | some b => (v.set i b).dropLast

/-- Modelled from the spec: the `ASSERT` macro is used by `signal.h` but defined
nowhere in the sources; following the spec ("should abort/assert in debug
builds") a false condition aborts, which is the result `none`. -/
def ASSERT (c : Bool) : Option Unit :=
  if c then some () else none

/-! ## `signal`: queries and the functions called by the slot -/

/-- Translation of `signal::contains(const Slot* s)`. -/
def signal.contains {Cb : Type} (self s : Nat) (h : Heap Cb) : Bool :=
  (h.slots_ self).any (fun sl => s == sl)

/-- Translation of `signal::containsSlots()`. -/
def signal.containsSlots {Cb : Type} (self : Nat) (h : Heap Cb) : Bool :=
  !(h.slots_ self).isEmpty

/-- Translation of `signal::size()`. -/
def signal.size {Cb : Type} (self : Nat) (h : Heap Cb) : Nat :=
  (h.slots_ self).length

/-- Translation of `signal::replaceReference(oldRef, newRef)`: the first entry equal to
`oldRef` is overwritten by `newRef`, then the function returns. -/
def signal.replaceReference {Cb : Type} (self oldRef newRef : Nat) (h : Heap Cb) : Heap Cb :=
  match indexOfFirst oldRef (h.slots_ self) with
  | none => h
  | some i => { h with slots_ := upd h.slots_ self ((h.slots_ self).set i newRef) }

/-- Translation of `signal::slotRemoveRef(slot)`: the first entry equal to `slot` is
overwritten by the last entry and the last entry is popped. -/
def signal.slotRemoveRef {Cb : Type} (self slot : Nat) (h : Heap Cb) : Heap Cb :=
  match indexOfFirst slot (h.slots_ self) with
  | none => h
  | some i => { h with slots_ := upd h.slots_ self (swapWithBackAndPop (h.slots_ self) i) }

/-- Translation of `signal::slotAddRef(slot)`: `ASSERT(!contains(slot))`, then `push_back`. -/
def signal.slotAddRef {Cb : Type} (self slot : Nat) (h : Heap Cb) : Option (Heap Cb) :=
  (ASSERT (!signal.contains self slot h)).bind fun _ =>
    some { h with slots_ := upd h.slots_ self (h.slots_ self ++ [slot]) }

/-! ## `slot` -/

/-- Translation of `slot::getSignalIndex(s)`; `none` stands for the result `-1`. -/
def slot.getSignalIndex {Cb : Type} (self s : Nat) (h : Heap Cb) : Option Nat :=
  indexOfFirst s (h.signals_ self)

/-- Translation of `slot::isLinked(void)`. -/
def slot.isLinked {Cb : Type} (self : Nat) (h : Heap Cb) : Bool :=
  !(h.signals_ self).isEmpty

/-- Translation of `slot::isLinked(const Signal* s)`: `getSignalIndex(s) >= 0`. -/
def slot.isLinkedTo {Cb : Type} (self s : Nat) (h : Heap Cb) : Bool :=
  (slot.getSignalIndex self s h).isSome

/-- Translation of the private `slot::unlink(const Signal* s, bool notifySignal)`. -/
def slot.unlink2 {Cb : Type} (self s : Nat) (notifySignal : Bool) (h : Heap Cb) : Heap Cb :=
  match slot.getSignalIndex self s h with
  | none => h
  | some index =>
    let h1 :=
      if notifySignal then
        match (h.signals_ self)[index]? with
        | some sg => signal.slotRemoveRef sg self h
        | none => h
      else h
    { h1 with signals_ := upd h1.signals_ self (swapWithBackAndPop (h1.signals_ self) index) }

/-- Translation of the public `slot::unlink(const Signal* s)`. -/
def slot.unlink {Cb : Type} (self s : Nat) (h : Heap Cb) : Heap Cb :=
  slot.unlink2 self s true h

/-- Translation of `slot::unlinkAll()`.  The loop body never writes `signals_`, so the
loop runs over the list read at entry. -/
def slot.unlinkAll {Cb : Type} (self : Nat) (h : Heap Cb) : Heap Cb :=
  let h1 := (h.signals_ self).foldl (fun acc s => signal.slotRemoveRef s self acc) h
  { h1 with signals_ := upd h1.signals_ self [] }

/-- Translation of `slot::link(Signal* s)`; `none` is a failed `ASSERT` in `slotAddRef`. -/
def slot.link {Cb : Type} (self s : Nat) (h : Heap Cb) : Option (Heap Cb) :=
  match slot.getSignalIndex self s h with
  | some _ => some h
  | none =>
    signal.slotAddRef s self
      { h with signals_ := upd h.signals_ self (h.signals_ self ++ [s]) }

/-- Translation of `slot::setCallback(cb)`. -/
def slot.setCallback {Cb : Type} (self : Nat) (cb : Option Cb) (h : Heap Cb) : Heap Cb :=
  { h with callback_ := upd h.callback_ self cb }

/-- Translation of `slot::callback()`. -/
def slot.callback {Cb : Type} (self : Nat) (h : Heap Cb) : Option Cb :=
  h.callback_ self

/-- Translation of `slot::changeSignalsRef(old)`.  The loop body never writes `signals_`. -/
def slot.changeSignalsRef {Cb : Type} (self old : Nat) (h : Heap Cb) : Heap Cb :=
  (h.signals_ self).foldl (fun acc s => signal.replaceReference s old self acc) h

/-- Translation of the copy constructor `slot::slot(const slot& s)`: the members are
initialised from `s` (the vector by `std::move`), `s.signals_` is cleared and the
signals are retargeted. -/
def slot.copyConstruct {Cb : Type} (self s : Nat) (h : Heap Cb) : Heap Cb :=
  let h1 : Heap Cb :=
    { h with callback_ := upd h.callback_ self (h.callback_ s),
             signals_ := upd h.signals_ self (h.signals_ s) }
  let h2 : Heap Cb := { h1 with signals_ := upd h1.signals_ s [] }
  slot.changeSignalsRef self s h2

/-- Translation of the copy assignment `slot::operator=(const slot& s)`. -/
def slot.copyAssign {Cb : Type} (self s : Nat) (h : Heap Cb) : Heap Cb :=
  if s = self then h
  else
    let h1 : Heap Cb := { h with callback_ := upd h.callback_ self (slot.callback s h) }
    let h2 : Heap Cb := { h1 with signals_ := upd h1.signals_ self (h1.signals_ s) }
    let h3 : Heap Cb := { h2 with signals_ := upd h2.signals_ s [] }
    slot.changeSignalsRef self s h3

/-- Translation of the move constructor `slot::slot(slot&& s)`.  `residue` is the value
the moved-from `std::function` is left with, which the language leaves unspecified. -/
def slot.moveConstruct {Cb : Type} (residue : Option Cb) (self s : Nat) (h : Heap Cb) :
    Heap Cb :=
  let h1 : Heap Cb :=
    { h with callback_ := upd (upd h.callback_ self (h.callback_ s)) s residue,
             signals_ := upd h.signals_ self (h.signals_ s) }
  let h2 : Heap Cb := { h1 with signals_ := upd h1.signals_ s [] }
  slot.changeSignalsRef self s h2

/-- Translation of the move assignment `slot::operator=(slot&& s)`; `residue` as in
`slot.moveConstruct`. -/
def slot.moveAssign {Cb : Type} (residue : Option Cb) (self s : Nat) (h : Heap Cb) :
    Heap Cb :=
  if s = self then h
  else
    let h1 : Heap Cb :=
      { h with callback_ := upd (upd h.callback_ self (h.callback_ s)) s residue }
    let h2 : Heap Cb := { h1 with signals_ := upd h1.signals_ self (h1.signals_ s) }
    let h3 : Heap Cb := { h2 with signals_ := upd h2.signals_ s [] }
    slot.changeSignalsRef self s h3

/-! ## `signal`: public operations -/

/-- Translation of `signal::addSlot(Slot* s)`; the null pointer is `none`. -/
def signal.addSlot {Cb : Type} (self : Nat) (s : Option Nat) (h : Heap Cb) :
    Option (Heap Cb) :=
  match s with
  | none => some h
  | some t => if signal.contains self t h then some h else slot.link t self h

/-- Translation of `signal::removeSlot(Slot* s)`; the null pointer is `none`. -/
def signal.removeSlot {Cb : Type} (self : Nat) (s : Option Nat) (h : Heap Cb) : Heap Cb :=
  match s with
  | none => h
  | some t => slot.unlink2 t self true h

/-- Translation of `signal::clear()`.  The loop body (`unlink(this, false)`) never writes
`slots_`, so the loop runs over the list read at entry. -/
def signal.clear {Cb : Type} (self : Nat) (h : Heap Cb) : Heap Cb :=
  let h1 := (h.slots_ self).foldl (fun acc s => slot.unlink2 s self false acc) h
  { h1 with slots_ := upd h1.slots_ self [] }

/-- Translation of `signal::emitSignal(args...)`.  A callback acts on the part `W` of the
program state outside the link graph through `call`; it has no access to the heap.
The result is the heap after the loop and the outer state after the calls. -/
def signal.emitSignal {Cb Args W : Type} (call : Cb → Args → W → W) (self : Nat)
    (args : Args) (h : Heap Cb) (w : W) : Heap Cb × W :=
  (h.slots_ self).foldl
    (fun acc sl =>
      match slot.callback sl acc.1 with
      | some cb => (acc.1, call cb args acc.2)
      | none => acc)
    (h, w)

/-! ## Programs: object lifetimes and sequences of public operations -/

/-- A heap together with the addresses at which a signal, respectively a slot, is
currently alive (constructed and not yet destroyed). -/
structure World (Cb : Type) where
  heap : Heap Cb
  liveSignals : List Nat
  liveSlots : List Nat

/-- Start of a program: no object has been constructed. -/
def World.init (Cb : Type) : World Cb :=
  ⟨Heap.fresh Cb, [], []⟩

/-- One statement of a client program: a constructor call, a call of a public member
function on a live object, or the end of an object's lifetime. -/
inductive Op (Cb : Type) where
  /-- Construct a signal at address `S`: `signal()`. -/
  | newSignal (S : Nat)
  /-- Construct a slot at address `T`: `slot()` or `slot(cb)`. -/
  | newSlot (T : Nat) (cb : Option Cb)
  /-- Construct a slot at address `T` by `slot(const slot&)` from the slot at `src`. -/
  | copyConstruct (T src : Nat)
  /-- Construct a slot at address `T` by `slot(slot&&)` from the slot at `src`. -/
  | moveConstruct (residue : Option Cb) (T src : Nat)
  /-- Statement `T = src` through `operator=(const slot&)`. -/
  | copyAssign (T src : Nat)
  /-- Statement `T = std::move(src)` through `operator=(slot&&)`. -/
  | moveAssign (residue : Option Cb) (T src : Nat)
  | setCallback (T : Nat) (cb : Option Cb)
  | link (T S : Nat)
  | unlink (T S : Nat)
  | unlinkAll (T : Nat)
  | addSlot (S : Nat) (T : Option Nat)
  | removeSlot (S : Nat) (T : Option Nat)
  | clear (S : Nat)
  | emitSignal (S : Nat)
  /-- End of the lifetime of the signal at `S`: `~signal()` runs `clear()`. -/
  | destroySignal (S : Nat)
  /-- End of the lifetime of the slot at `T`: `~slot()` runs `unlinkAll()`. -/
  | destroySlot (T : Nat)

/-- Destructor calls, as opposed to constructors and public member functions. -/
def Op.isDestruction {Cb : Type} : Op Cb → Bool
  | .destroySignal _ => true
  | .destroySlot _ => true
  | _ => false

/-- A possibly null slot pointer handed to a signal refers to a live slot. -/
def World.validSlotPtr {Cb : Type} (w : World Cb) : Option Nat → Bool
  | none => true
  | some t => decide (t ∈ w.liveSlots)

/-- Effect of one statement.  The result is `none` when the statement is not a legal
client statement in this world (it constructs over a live object, or names an object
that is not alive) and when an `ASSERT` fails.  `emitSignal` leaves the world as it
is: callbacks act outside the heap (see `signal.emitSignal`). -/
def Op.apply {Cb : Type} : Op Cb → World Cb → Option (World Cb)
  | .newSignal S, w =>
    if S ∈ w.liveSignals then none
    else some ⟨{ w.heap with slots_ := upd w.heap.slots_ S [] }, S :: w.liveSignals, w.liveSlots⟩
  | .newSlot T cb, w =>
    if T ∈ w.liveSlots then none
    else some ⟨{ w.heap with callback_ := upd w.heap.callback_ T cb,
                             signals_ := upd w.heap.signals_ T [] },
               w.liveSignals, T :: w.liveSlots⟩
  | .copyConstruct T src, w =>
    if T ∉ w.liveSlots ∧ src ∈ w.liveSlots then
      some ⟨slot.copyConstruct T src w.heap, w.liveSignals, T :: w.liveSlots⟩
    else none
  | .moveConstruct residue T src, w =>
    if T ∉ w.liveSlots ∧ src ∈ w.liveSlots then
      some ⟨slot.moveConstruct residue T src w.heap, w.liveSignals, T :: w.liveSlots⟩
    else none
  | .copyAssign T src, w =>
    if T ∈ w.liveSlots ∧ src ∈ w.liveSlots then
      some ⟨slot.copyAssign T src w.heap, w.liveSignals, w.liveSlots⟩
    else none
  | .moveAssign residue T src, w =>
    if T ∈ w.liveSlots ∧ src ∈ w.liveSlots then
      some ⟨slot.moveAssign residue T src w.heap, w.liveSignals, w.liveSlots⟩
    else none
  | .setCallback T cb, w =>
    if T ∈ w.liveSlots then some ⟨slot.setCallback T cb w.heap, w.liveSignals, w.liveSlots⟩
    else none
  | .link T S, w =>
    if T ∈ w.liveSlots ∧ S ∈ w.liveSignals then
      (slot.link T S w.heap).map fun h => ⟨h, w.liveSignals, w.liveSlots⟩
    else none
  | .unlink T S, w =>
    if T ∈ w.liveSlots ∧ S ∈ w.liveSignals then
      some ⟨slot.unlink T S w.heap, w.liveSignals, w.liveSlots⟩
    else none
  | .unlinkAll T, w =>
    if T ∈ w.liveSlots then some ⟨slot.unlinkAll T w.heap, w.liveSignals, w.liveSlots⟩
    else none
  | .addSlot S T, w =>
    if S ∈ w.liveSignals ∧ w.validSlotPtr T = true then
      (signal.addSlot S T w.heap).map fun h => ⟨h, w.liveSignals, w.liveSlots⟩
    else none
  | .removeSlot S T, w =>
    if S ∈ w.liveSignals ∧ w.validSlotPtr T = true then
      some ⟨signal.removeSlot S T w.heap, w.liveSignals, w.liveSlots⟩
    else none
  | .clear S, w =>
    if S ∈ w.liveSignals then some ⟨signal.clear S w.heap, w.liveSignals, w.liveSlots⟩
    else none
  | .emitSignal S, w =>
    if S ∈ w.liveSignals then some w else none
  | .destroySignal S, w =>
    if S ∈ w.liveSignals then
      some ⟨signal.clear S w.heap, w.liveSignals.filter (fun x => x != S), w.liveSlots⟩
    else none
  | .destroySlot T, w =>
    if T ∈ w.liveSlots then
      some ⟨slot.unlinkAll T w.heap, w.liveSignals, w.liveSlots.filter (fun x => x != T)⟩
    else none

/-- Effect of a sequence of statements, first statement first. -/
def run {Cb : Type} : List (Op Cb) → World Cb → Option (World Cb)
  | [], w => some w
  | op :: ops, w => (op.apply w).bind (run ops)

/-- Worlds a client program can reach with constructors, public member functions and
destructors. -/
def Reachable {Cb : Type} (w : World Cb) : Prop :=
  ∃ ops : List (Op Cb), run ops (World.init Cb) = some w

/-- Worlds a client program can reach without destroying any object. -/
def ReachablePublic {Cb : Type} (w : World Cb) : Prop :=
  ∃ ops : List (Op Cb), (∀ op ∈ ops, op.isDestruction = false) ∧
    run ops (World.init Cb) = some w

/-! ## State predicates -/

/-- Link symmetry: `S.contains(T) == T.isLinked(S)` for every signal and slot. -/
def Symmetric {Cb : Type} (h : Heap Cb) : Prop :=
  ∀ S T : Nat, signal.contains S T h = slot.isLinkedTo T S h

/-- No slot occurs twice in a signal, no signal occurs twice in a slot. -/
def DuplicateFree {Cb : Type} (h : Heap Cb) : Prop :=
  (∀ S : Nat, (h.slots_ S).Nodup) ∧ (∀ T : Nat, (h.signals_ T).Nodup)

/-! ## The two search loops as functions on vectors -/

/-- What the loop of `signal::replaceReference` does to the vector it scans. -/
def replaceFirst (oldRef newRef : Nat) (v : List Nat) : List Nat :=
  match indexOfFirst oldRef v with
  | none => v
  | some i => v.set i newRef

/-- What the loop of `signal::slotRemoveRef` does to the vector it scans; `slot::unlink`
does the same to `signals_`. -/
def removeFirst (x : Nat) (v : List Nat) : List Nat :=
  match indexOfFirst x v with
  | none => v
  | some i => swapWithBackAndPop v i

/-- Entry-wise substitution of the address `a` by the address `b`. -/
def substAddr (a b : Nat) (x : Nat) : Nat :=
  if x = a then b else x

/-- Outcome of relocating slot `A` into slot `B`, from heap `h` to heap `h1`, as the copy
transfer property states it: `A` has no links left, and every signal `A` was linked to is
linked to `B`, no longer contains `A` and contains `B`. -/
def LinksTransferred {Cb : Type} (h h1 : Heap Cb) (A B : Nat) : Prop :=
  slot.isLinked A h1 = false ∧
  ∀ S : Nat, slot.isLinkedTo A S h = true →
    slot.isLinkedTo B S h1 = true ∧ signal.contains S A h1 = false ∧
      signal.contains S B h1 = true

/-- In every signal the slot sequence of `h1` is the one of `h` with the entry `A`
replaced by `B` at the same index; a sequence without `A` is unchanged. -/
def SubstitutedInPlace {Cb : Type} (h h1 : Heap Cb) (A B : Nat) : Prop :=
  ∀ S : Nat,
    h1.slots_ S = (h.slots_ S).map (substAddr A B) ∧
    (h1.slots_ S).length = (h.slots_ S).length ∧
    (∀ i : Nat, (h1.slots_ S)[i]? = ((h.slots_ S)[i]?).map (substAddr A B)) ∧
    (A ∉ h.slots_ S → h1.slots_ S = h.slots_ S)

/-- Two heaps hold the same links: the same slot sequence in every signal and the same
signal list in every slot. -/
def SameLinks {Cb : Type} (h1 h2 : Heap Cb) : Prop :=
  h1.slots_ = h2.slots_ ∧ h1.signals_ = h2.signals_

/-- No signal occurs twice in the signal list of any slot. -/
def SlotListsNodup {Cb : Type} (h : Heap Cb) : Prop :=
  ∀ T : Nat, (h.signals_ T).Nodup

/-! ## Concrete states and client programs -/

/-- A heap with three links: the slot at address 0 (which has a callback) is linked to the
signals at addresses 0 and 1, the slot at address 2 is linked to the signal at address 0,
whose slot sequence is `[2, 0]`. -/
def fanIn : Heap Unit :=
  ⟨upd (upd (fun _ => []) 0 [2, 0]) 1 [0],
   upd (upd (fun _ => []) 0 [0, 1]) 2 [0],
   upd (fun _ => none) 0 (some ())⟩

/-- The world after `signal sig; slot sl; sig.addSlot(&sl);`, all at address 0. -/
def linkedWorld : World Unit :=
  (run [.newSignal 0, .newSlot 0 none, .addSlot 0 (some 0)] (World.init Unit)).getD
    (World.init Unit)


/-- A signal at address 0 and two slots at addresses 0 and 1; slot 1 is added to the
signal and is then the destination of `slot1 = slot0`, where slot 0 has no links. -/
def assignOntoLinked : List (Op Unit) :=
  [.newSignal 0, .newSlot 0 none, .newSlot 1 none, .addSlot 0 (some 1), .copyAssign 1 0]

/-- The program `assignOntoLinked` followed by the end of the lifetime of slot 1. -/
def assignOntoLinkedThenDestroy : List (Op Unit) :=
  assignOntoLinked ++ [.destroySlot 1]

/-- A signal at address 0 and two slots at addresses 0 and 1; both slots are added to the
signal, then `slot1 = slot0` is executed. -/
def assignBetweenLinked : List (Op Unit) :=
  [.newSignal 0, .newSlot 0 none, .newSlot 1 none, .addSlot 0 (some 0), .addSlot 0 (some 1),
   .copyAssign 1 0]

/-- The statements `S.addSlot(&T);` for every signal `S` of the list, in list order; `none`
when one of the calls fails an `ASSERT`. -/
def addSlotToAll {Cb : Type} (T : Nat) : List Nat → Heap Cb → Option (Heap Cb)
  | [], h => some h
  | S :: L, h => (signal.addSlot S (some T) h).bind (addSlotToAll T L)

/-- The statements `S.removeSlot(&T);` for every signal `S` of the list, in list order. -/
def removeSlotFromAll {Cb : Type} (T : Nat) (R : List Nat) (h : Heap Cb) : Heap Cb :=
  R.foldl (fun acc S => signal.removeSlot S (some T) acc) h

/-- Every link a slot records is also recorded by the signal: `T.isLinked(&S)` implies
`S.contains(&T)`. -/
def LinkedImpliesContained {Cb : Type} (h : Heap Cb) : Prop :=
  ∀ T S : Nat, S ∈ h.signals_ T → T ∈ h.slots_ S

/-- Addresses at which no object is alive hold empty vectors. -/
def DeadObjectsEmpty {Cb : Type} (w : World Cb) : Prop :=
  (∀ T : Nat, T ∉ w.liveSlots → w.heap.signals_ T = []) ∧
  (∀ S : Nat, S ∉ w.liveSignals → w.heap.slots_ S = [])

/-- What holds in every world a client program can reach, whatever it assigns. -/
def Consistent {Cb : Type} (w : World Cb) : Prop :=
  SlotListsNodup w.heap ∧ LinkedImpliesContained w.heap ∧ DeadObjectsEmpty w

/-- The world after the program `assignBetweenLinked`: the signal holds `[1, 1]`, slot 1
lists the signal, slot 0 lists nothing. -/
def assignedBetweenLinkedWorld : World Unit :=
  (run assignBetweenLinked (World.init Unit)).getD (World.init Unit)

/-- Link symmetry together with duplicate-freedom of both collections. -/
def WellLinked {Cb : Type} (h : Heap Cb) : Prop :=
  Symmetric h ∧ DuplicateFree h

/-- The statement is an assignment whose destination is another slot that still has
links. -/
def Op.assignsOntoLinked {Cb : Type} (op : Op Cb) (h : Heap Cb) : Prop :=
  match op with
  | .copyAssign T src => src ≠ T ∧ slot.isLinked T h = true
  | .moveAssign _ T src => src ≠ T ∧ slot.isLinked T h = true
  | _ => False

/-- The world after `signal sig; slot sl0, sl1; sig.addSlot(&sl0);`. -/
def oneLinkTwoSlotsWorld : World Unit :=
  (run [.newSignal 0, .newSlot 0 none, .newSlot 1 none, .addSlot 0 (some 0)]
    (World.init Unit)).getD (World.init Unit)

/-- The world after `signal sig; slot sl0, sl1; sig.addSlot(&sl1);`. -/
def secondSlotLinkedWorld : World Unit :=
  (run [.newSignal 0, .newSlot 0 none, .newSlot 1 none, .addSlot 0 (some 1)]
    (World.init Unit)).getD (World.init Unit)

end sigslot

namespace sigslot

/-! ## Basic facts about the helpers -/

@[simp] theorem upd_same {α : Type} (f : Nat → α) (i : Nat) (v : α) : upd f i v i = v := by
  simp [upd]

@[simp] theorem upd_other {α : Type} (f : Nat → α) {i j : Nat} (v : α) (hne : j ≠ i) :
    upd f i v j = f j := by
  simp [upd, hne]

theorem upd_apply {α : Type} (f : Nat → α) (i j : Nat) (v : α) :
    upd f i v j = if j = i then v else f j := rfl

theorem indexOfFirst_eq_none {x : Nat} {l : List Nat} : indexOfFirst x l = none ↔ x ∉ l := by
  induction l with
  | nil => simp [indexOfFirst]
  | cons y ys ih =>
    by_cases hy : y = x
    · simp [indexOfFirst, hy]
    · have hxy : ¬ x = y := fun e => hy e.symm
      simp [indexOfFirst, hy, hxy, ih]

theorem indexOfFirst_isSome {x : Nat} {l : List Nat} :
    (indexOfFirst x l).isSome = true ↔ x ∈ l := by
  rw [← not_iff_not, ← indexOfFirst_eq_none]
  cases indexOfFirst x l <;> simp

theorem indexOfFirst_some_get {x : Nat} {l : List Nat} {i : Nat}
    (hi : indexOfFirst x l = some i) : l[i]? = some x := by
  induction l generalizing i with
  | nil => simp [indexOfFirst] at hi
  | cons y ys ih =>
    by_cases hy : y = x
    · simp [indexOfFirst, hy] at hi
      subst hi
      simp [hy]
    · simp only [indexOfFirst, hy, if_false, Option.map_eq_some'] at hi
      obtain ⟨j, hj, rfl⟩ := hi
      simpa using ih hj

theorem contains_iff {Cb : Type} (S T : Nat) (h : Heap Cb) :
    signal.contains S T h = true ↔ T ∈ h.slots_ S := by
  simp [signal.contains]

theorem isLinkedTo_iff {Cb : Type} (T S : Nat) (h : Heap Cb) :
    slot.isLinkedTo T S h = true ↔ S ∈ h.signals_ T := by
  simp only [slot.isLinkedTo, slot.getSignalIndex]
  exact indexOfFirst_isSome

theorem symmetric_iff {Cb : Type} (h : Heap Cb) :
    Symmetric h ↔ ∀ S T : Nat, T ∈ h.slots_ S ↔ S ∈ h.signals_ T := by
  unfold Symmetric
  constructor
  · intro hs S T
    rw [← contains_iff, ← isLinkedTo_iff, hs S T]
  · intro hs S T
    rw [Bool.eq_iff_iff, contains_iff, isLinkedTo_iff]
    exact hs S T

/-! ## Field-wise description of the internal operations -/

theorem replaceReference_slots {Cb : Type} (S o n X : Nat) (h : Heap Cb) :
    (signal.replaceReference S o n h).slots_ X =
      if X = S then replaceFirst o n (h.slots_ X) else h.slots_ X := by
  unfold signal.replaceReference replaceFirst
  by_cases hX : X = S
  · subst hX
    cases hi : indexOfFirst o (h.slots_ X) <;> simp
  · cases hi : indexOfFirst o (h.slots_ S) <;> simp [hX]

theorem replaceReference_signals {Cb : Type} (S o n : Nat) (h : Heap Cb) :
    (signal.replaceReference S o n h).signals_ = h.signals_ := by
  unfold signal.replaceReference
  cases indexOfFirst o (h.slots_ S) <;> rfl

theorem replaceReference_callback {Cb : Type} (S o n : Nat) (h : Heap Cb) :
    (signal.replaceReference S o n h).callback_ = h.callback_ := by
  unfold signal.replaceReference
  cases indexOfFirst o (h.slots_ S) <;> rfl

theorem slotRemoveRef_slots {Cb : Type} (S T X : Nat) (h : Heap Cb) :
    (signal.slotRemoveRef S T h).slots_ X =
      if X = S then removeFirst T (h.slots_ X) else h.slots_ X := by
  unfold signal.slotRemoveRef removeFirst
  by_cases hX : X = S
  · subst hX
    cases hi : indexOfFirst T (h.slots_ X) <;> simp
  · cases hi : indexOfFirst T (h.slots_ S) <;> simp [hX]

theorem slotRemoveRef_signals {Cb : Type} (S T : Nat) (h : Heap Cb) :
    (signal.slotRemoveRef S T h).signals_ = h.signals_ := by
  unfold signal.slotRemoveRef
  cases indexOfFirst T (h.slots_ S) <;> rfl

theorem slotRemoveRef_callback {Cb : Type} (S T : Nat) (h : Heap Cb) :
    (signal.slotRemoveRef S T h).callback_ = h.callback_ := by
  unfold signal.slotRemoveRef
  cases indexOfFirst T (h.slots_ S) <;> rfl

/-- A loop that applies `step s` for every `s` in `L`, where `step s` rewrites the vector
at address `s` by `f` and no other vector, applies `f` to the vector at `X` once per
occurrence of `X` in `L`. -/
theorem foldl_pointwise {Cb : Type} (step : Nat → Heap Cb → Heap Cb)
    (field : Heap Cb → Nat → List Nat) (f : List Nat → List Nat)
    (hstep : ∀ s X h, field (step s h) X = if X = s then f (field h X) else field h X)
    (L : List Nat) (h : Heap Cb) (X : Nat) :
    field (L.foldl (fun acc s => step s acc) h) X = f^[L.count X] (field h X) := by
  induction L generalizing h with
  | nil => simp
  | cons s L ih =>
    rw [List.foldl_cons, ih, hstep]
    by_cases hX : X = s
    · subst hX
      simp [Function.iterate_succ_apply]
    · have hs : ¬ s = X := fun e => hX e.symm
      simp [hX, List.count_cons, hs]

/-- A loop whose steps leave a field alone leaves that field alone. -/
theorem foldl_frame {Cb α : Type} (step : Nat → Heap Cb → Heap Cb) (field : Heap Cb → α)
    (hstep : ∀ s h, field (step s h) = field h) (L : List Nat) (h : Heap Cb) :
    field (L.foldl (fun acc s => step s acc) h) = field h := by
  induction L generalizing h with
  | nil => rfl
  | cons s L ih => rw [List.foldl_cons, ih, hstep]

theorem changeSignalsRef_slots {Cb : Type} (self old X : Nat) (h : Heap Cb) :
    (slot.changeSignalsRef self old h).slots_ X =
      (replaceFirst old self)^[(h.signals_ self).count X] (h.slots_ X) :=
  foldl_pointwise (fun s acc => signal.replaceReference s old self acc) (fun h => h.slots_)
    (replaceFirst old self) (fun s X h => replaceReference_slots s old self X h) _ h X

theorem changeSignalsRef_signals {Cb : Type} (self old : Nat) (h : Heap Cb) :
    (slot.changeSignalsRef self old h).signals_ = h.signals_ :=
  foldl_frame (fun s acc => signal.replaceReference s old self acc) (fun h => h.signals_)
    (fun s h => replaceReference_signals s old self h) _ h

theorem changeSignalsRef_callback {Cb : Type} (self old : Nat) (h : Heap Cb) :
    (slot.changeSignalsRef self old h).callback_ = h.callback_ :=
  foldl_frame (fun s acc => signal.replaceReference s old self acc) (fun h => h.callback_)
    (fun s h => replaceReference_callback s old self h) _ h

/-! ## Facts about `replaceFirst` -/

theorem replaceFirst_cons (o n y : Nat) (ys : List Nat) :
    replaceFirst o n (y :: ys) = if y = o then n :: ys else y :: replaceFirst o n ys := by
  unfold replaceFirst
  by_cases hy : y = o
  · simp [indexOfFirst, hy]
  · cases hi : indexOfFirst o ys <;> simp [indexOfFirst, hy, hi]

theorem replaceFirst_of_not_mem {o n : Nat} {l : List Nat} (ho : o ∉ l) :
    replaceFirst o n l = l := by
  unfold replaceFirst
  rw [indexOfFirst_eq_none.mpr ho]

theorem replaceFirst_length (o n : Nat) (l : List Nat) :
    (replaceFirst o n l).length = l.length := by
  unfold replaceFirst
  cases indexOfFirst o l <;> simp

theorem map_substAddr_of_not_mem {a b : Nat} {l : List Nat} (ha : a ∉ l) :
    l.map (substAddr a b) = l := by
  induction l with
  | nil => rfl
  | cons y ys ih =>
    simp only [List.mem_cons, not_or] at ha
    have hy : ¬ y = a := fun e => ha.1 e.symm
    simp [substAddr, hy, ih ha.2]

/-- When `o` occurs at most once, overwriting its first occurrence is the entry-wise
substitution of `o` by `n`. -/
theorem replaceFirst_eq_map {o n : Nat} {l : List Nat} (hc : l.count o ≤ 1) :
    replaceFirst o n l = l.map (substAddr o n) := by
  induction l with
  | nil => rfl
  | cons y ys ih =>
    rw [replaceFirst_cons]
    by_cases hy : y = o
    · subst hy
      have h0 : ys.count y = 0 := by
        simp only [List.count_cons_self] at hc
        omega
      have hnot : y ∉ ys := List.count_eq_zero.mp h0
      simp [substAddr, map_substAddr_of_not_mem hnot]
    · have hc2 : ys.count o ≤ 1 := by
        have := List.count_le_count_cons o y ys
        omega
      simp [hy, substAddr, ih hc2]

theorem not_mem_map_substAddr {a b : Nat} (hab : a ≠ b) (l : List Nat) :
    a ∉ l.map (substAddr a b) := by
  intro hm
  obtain ⟨x, _, hx⟩ := List.mem_map.mp hm
  unfold substAddr at hx
  by_cases hxa : x = a
  · rw [if_pos hxa] at hx
    exact hab hx.symm
  · rw [if_neg hxa] at hx
    exact hxa hx

theorem mem_map_substAddr_of_mem {a b : Nat} {l : List Nat} (ha : a ∈ l) :
    b ∈ l.map (substAddr a b) :=
  List.mem_map.mpr ⟨a, ha, by simp [substAddr]⟩

/-- Repeating `replaceFirst` on a vector that holds `o` at most once: the first round
substitutes, the later rounds find nothing. -/
theorem iterate_replaceFirst_eq_map {o n : Nat} (hon : o ≠ n) {l : List Nat}
    (hc : l.count o ≤ 1) {k : Nat} (hk : 0 < k) :
    (replaceFirst o n)^[k] l = l.map (substAddr o n) := by
  obtain ⟨m, rfl⟩ : ∃ m, k = m + 1 := ⟨k - 1, by omega⟩
  rw [Function.iterate_succ_apply, replaceFirst_eq_map hc]
  exact Function.iterate_fixed (replaceFirst_of_not_mem (not_mem_map_substAddr hon l)) m

theorem iterate_replaceFirst_of_not_mem {o n : Nat} {l : List Nat} (ho : o ∉ l) (k : Nat) :
    (replaceFirst o n)^[k] l = l :=
  Function.iterate_fixed (replaceFirst_of_not_mem ho) k

/-! ## Relocation of a slot: the four copy and move operations -/

theorem copyAssign_slots {Cb : Type} {A B : Nat} (hAB : A ≠ B) (h : Heap Cb) (X : Nat) :
    (slot.copyAssign B A h).slots_ X =
      (replaceFirst A B)^[(h.signals_ A).count X] (h.slots_ X) := by
  simp [slot.copyAssign, hAB, changeSignalsRef_slots, hAB.symm]

theorem copyAssign_signals {Cb : Type} {A B : Nat} (hAB : A ≠ B) (h : Heap Cb) :
    (slot.copyAssign B A h).signals_ = upd (upd h.signals_ B (h.signals_ A)) A [] := by
  simp [slot.copyAssign, hAB, changeSignalsRef_signals]

theorem copyAssign_callback {Cb : Type} {A B : Nat} (hAB : A ≠ B) (h : Heap Cb) :
    (slot.copyAssign B A h).callback_ = upd h.callback_ B (h.callback_ A) := by
  simp [slot.copyAssign, hAB, changeSignalsRef_callback, slot.callback]

theorem copyConstruct_slots {Cb : Type} {A B : Nat} (hAB : A ≠ B) (h : Heap Cb) (X : Nat) :
    (slot.copyConstruct B A h).slots_ X =
      (replaceFirst A B)^[(h.signals_ A).count X] (h.slots_ X) := by
  simp [slot.copyConstruct, changeSignalsRef_slots, hAB.symm]

theorem copyConstruct_signals {Cb : Type} (A B : Nat) (h : Heap Cb) :
    (slot.copyConstruct B A h).signals_ = upd (upd h.signals_ B (h.signals_ A)) A [] := by
  simp [slot.copyConstruct, changeSignalsRef_signals]

theorem copyConstruct_callback {Cb : Type} (A B : Nat) (h : Heap Cb) :
    (slot.copyConstruct B A h).callback_ = upd h.callback_ B (h.callback_ A) := by
  simp [slot.copyConstruct, changeSignalsRef_callback]

theorem moveAssign_slots {Cb : Type} {A B : Nat} (hAB : A ≠ B) (r : Option Cb) (h : Heap Cb)
    (X : Nat) :
    (slot.moveAssign r B A h).slots_ X =
      (replaceFirst A B)^[(h.signals_ A).count X] (h.slots_ X) := by
  simp [slot.moveAssign, hAB, changeSignalsRef_slots, hAB.symm]

theorem moveAssign_signals {Cb : Type} {A B : Nat} (hAB : A ≠ B) (r : Option Cb)
    (h : Heap Cb) :
    (slot.moveAssign r B A h).signals_ = upd (upd h.signals_ B (h.signals_ A)) A [] := by
  simp [slot.moveAssign, hAB, changeSignalsRef_signals]

theorem moveAssign_callback {Cb : Type} {A B : Nat} (hAB : A ≠ B) (r : Option Cb)
    (h : Heap Cb) :
    (slot.moveAssign r B A h).callback_ = upd (upd h.callback_ B (h.callback_ A)) A r := by
  simp [slot.moveAssign, hAB, changeSignalsRef_callback]

theorem moveConstruct_slots {Cb : Type} {A B : Nat} (hAB : A ≠ B) (r : Option Cb)
    (h : Heap Cb) (X : Nat) :
    (slot.moveConstruct r B A h).slots_ X =
      (replaceFirst A B)^[(h.signals_ A).count X] (h.slots_ X) := by
  simp [slot.moveConstruct, changeSignalsRef_slots, hAB.symm]

theorem moveConstruct_signals {Cb : Type} (A B : Nat) (r : Option Cb) (h : Heap Cb) :
    (slot.moveConstruct r B A h).signals_ = upd (upd h.signals_ B (h.signals_ A)) A [] := by
  simp [slot.moveConstruct, changeSignalsRef_signals]

theorem moveConstruct_callback {Cb : Type} (A B : Nat) (r : Option Cb) (h : Heap Cb) :
    (slot.moveConstruct r B A h).callback_ = upd (upd h.callback_ B (h.callback_ A)) A r := by
  simp [slot.moveConstruct, changeSignalsRef_callback]

theorem linksTransferred_of_fields {Cb : Type} {h h1 : Heap Cb} {A B : Nat} (hAB : A ≠ B)
    (hsym : Symmetric h) (hone : ∀ S : Nat, (h.slots_ S).count A ≤ 1)
    (hsig : h1.signals_ = upd (upd h.signals_ B (h.signals_ A)) A [])
    (hslots : ∀ X, h1.slots_ X = (replaceFirst A B)^[(h.signals_ A).count X] (h.slots_ X)) :
    LinksTransferred h h1 A B := by
  refine ⟨by simp [slot.isLinked, hsig], ?_⟩
  intro S hS
  rw [isLinkedTo_iff] at hS
  have hmem : A ∈ h.slots_ S := ((symmetric_iff h).mp hsym S A).mpr hS
  have hpos : 0 < (h.signals_ A).count S := List.count_pos_iff.mpr hS
  have hnew : h1.slots_ S = (h.slots_ S).map (substAddr A B) := by
    rw [hslots, iterate_replaceFirst_eq_map hAB (hone S) hpos]
  refine ⟨?_, ?_, ?_⟩
  · rw [isLinkedTo_iff, hsig, upd_other _ _ hAB.symm, upd_same]
    exact hS
  · rw [Bool.eq_false_iff]
    intro hc
    rw [contains_iff, hnew] at hc
    exact not_mem_map_substAddr hAB _ hc
  · rw [contains_iff, hnew]
    exact mem_map_substAddr_of_mem hmem

theorem substitutedInPlace_of_fields {Cb : Type} {h h1 : Heap Cb} {A B : Nat} (hAB : A ≠ B)
    (hsym : Symmetric h) (hdup : DuplicateFree h)
    (hslots : ∀ X, h1.slots_ X = (replaceFirst A B)^[(h.signals_ A).count X] (h.slots_ X)) :
    SubstitutedInPlace h h1 A B := by
  intro S
  have hmap : h1.slots_ S = (h.slots_ S).map (substAddr A B) := by
    rw [hslots]
    by_cases hS : S ∈ h.signals_ A
    · exact iterate_replaceFirst_eq_map hAB
        (List.nodup_iff_count_le_one.mp (hdup.1 S) A) (List.count_pos_iff.mpr hS)
    · have hA : A ∉ h.slots_ S := fun hm => hS (((symmetric_iff h).mp hsym S A).mp hm)
      rw [List.count_eq_zero.mpr hS, map_substAddr_of_not_mem hA]
      rfl
  refine ⟨hmap, by rw [hmap, List.length_map], ?_, ?_⟩
  · intro i
    rw [hmap, List.getElem?_map]
  · intro hA
    rw [hmap, map_substAddr_of_not_mem hA]

/-! ## Copy and move: the contract -/

/-- C3, evaluated on the code: in the world reached by
`sig.addSlot(&sl0); sig.addSlot(&sl1); sl1 = sl0;` link symmetry holds (the assignment onto
the still linked `sl1` left `[&sl1, &sl1]` in the signal, and `sl1` is linked to it), yet
after relocating `sl1` into a third slot, by copy construction or copy assignment, the
signal holds `[&sl2, &sl1]` and so still contains the source: the links are not
transferred. -/
theorem copy_transfer_fails_on_duplicated_entry :
    ∃ w : World Unit, ReachablePublic w ∧ Symmetric w.heap ∧ (1 : Nat) ≠ 2 ∧
      ¬ LinksTransferred w.heap (slot.copyConstruct 2 1 w.heap) 1 2 ∧
      ¬ LinksTransferred w.heap (slot.copyAssign 2 1 w.heap) 1 2 := by
  refine ⟨_, ⟨assignBetweenLinked, by decide, rfl⟩, ?_, by decide, ?_, ?_⟩
  · rw [symmetric_iff]
    intro S T
    simp only [Op.apply, World.init, Heap.fresh, World.validSlotPtr, signal.addSlot,
      signal.contains, slot.link, slot.getSignalIndex, indexOfFirst, signal.slotAddRef,
      ASSERT, upd_apply]
    simp
    rw [copyAssign_slots (by decide), copyAssign_signals (by decide)]
    by_cases hS : S = 0
    · subst hS
      by_cases h0 : T = 0
      · subst h0; simp [upd_apply, replaceFirst, indexOfFirst]
      · by_cases h1 : T = 1
        · subst h1; simp [upd_apply, replaceFirst, indexOfFirst]
        · simp [upd_apply, replaceFirst, indexOfFirst, h0, h1]
    · have hS2 : ¬ 0 = S := fun e => hS e.symm
      by_cases h0 : T = 0
      · subst h0; simp [upd_apply, hS, hS2]
      · by_cases h1 : T = 1
        · subst h1; simp [upd_apply, hS, hS2]
        · simp [upd_apply, h0, h1, hS, hS2]
  · intro hT
    have := (hT.2 0 (by decide)).2.1
    revert this
    decide
  · intro hT
    have := (hT.2 0 (by decide)).2.1
    revert this
    decide

/-- Copy transfer where the assignment defect has left no duplicate: in a state in which
link symmetry holds and no signal's slot sequence holds `A` more than once, for distinct
slots `A` and `B`, copy-constructing `B` from `A` and copy-assigning `B = A` both leave `A`
without links, and every signal `S` that `A` was linked to is linked to `B`, does not
contain `A` and contains `B`. -/
theorem copy_transfers_links {Cb : Type} (h : Heap Cb) (A B : Nat) (hAB : A ≠ B)
    (hsym : Symmetric h) (hone : ∀ S : Nat, (h.slots_ S).count A ≤ 1) :
    LinksTransferred h (slot.copyConstruct B A h) A B ∧
      LinksTransferred h (slot.copyAssign B A h) A B :=
  ⟨linksTransferred_of_fields hAB hsym hone (copyConstruct_signals A B h)
      (copyConstruct_slots hAB h),
   linksTransferred_of_fields hAB hsym hone (copyAssign_signals hAB h)
      (copyAssign_slots hAB h)⟩

/-- C4: in a symmetric, duplicate-free state, relocating slot `A` into a distinct slot `B`
by copy construction, copy assignment, move construction or move assignment turns every
signal's slot sequence into the same sequence with the entry `A` replaced by `B` at the
same index (same length, same order); a sequence without `A` is unchanged. -/
theorem relocation_substitutes_in_place {Cb : Type} (h : Heap Cb) (A B : Nat) (hAB : A ≠ B)
    (hsym : Symmetric h) (hdup : DuplicateFree h) (r : Option Cb) :
    SubstitutedInPlace h (slot.copyConstruct B A h) A B ∧
      SubstitutedInPlace h (slot.copyAssign B A h) A B ∧
      SubstitutedInPlace h (slot.moveConstruct r B A h) A B ∧
      SubstitutedInPlace h (slot.moveAssign r B A h) A B :=
  ⟨substitutedInPlace_of_fields hAB hsym hdup (copyConstruct_slots hAB h),
   substitutedInPlace_of_fields hAB hsym hdup (copyAssign_slots hAB h),
   substitutedInPlace_of_fields hAB hsym hdup (moveConstruct_slots hAB r h),
   substitutedInPlace_of_fields hAB hsym hdup (moveAssign_slots hAB r h)⟩

/-- C5: for distinct slots `A` and `B` and any state, move assignment and copy assignment
of `A` into `B` end with the same links (the same slot sequence in every signal, the same
signal list in every slot: the former list of `A` in `B`, the empty list in `A`), and both
leave the former callback of `A` in `B`; likewise for the two constructors.  This holds
whatever value the moved-from callback of `A` is left with. -/
theorem move_parity {Cb : Type} (h : Heap Cb) (A B : Nat) (hAB : A ≠ B) (r : Option Cb) :
    (SameLinks (slot.moveAssign r B A h) (slot.copyAssign B A h) ∧
      (slot.moveAssign r B A h).signals_ B = h.signals_ A ∧
      (slot.moveAssign r B A h).signals_ A = [] ∧
      slot.callback B (slot.moveAssign r B A h) = slot.callback A h ∧
      slot.callback B (slot.copyAssign B A h) = slot.callback A h) ∧
    (SameLinks (slot.moveConstruct r B A h) (slot.copyConstruct B A h) ∧
      (slot.moveConstruct r B A h).signals_ B = h.signals_ A ∧
      (slot.moveConstruct r B A h).signals_ A = [] ∧
      slot.callback B (slot.moveConstruct r B A h) = slot.callback A h ∧
      slot.callback B (slot.copyConstruct B A h) = slot.callback A h) := by
  refine ⟨⟨⟨?_, ?_⟩, ?_, ?_, ?_, ?_⟩, ⟨⟨?_, ?_⟩, ?_, ?_, ?_, ?_⟩⟩
  · funext X
    rw [moveAssign_slots hAB, copyAssign_slots hAB]
  · rw [moveAssign_signals hAB, copyAssign_signals hAB]
  · rw [moveAssign_signals hAB, upd_other _ _ hAB.symm, upd_same]
  · rw [moveAssign_signals hAB, upd_same]
  · simp [slot.callback, moveAssign_callback hAB, hAB.symm]
  · simp [slot.callback, copyAssign_callback hAB]
  · funext X
    rw [moveConstruct_slots hAB, copyConstruct_slots hAB]
  · rw [moveConstruct_signals, copyConstruct_signals]
  · rw [moveConstruct_signals, upd_other _ _ hAB.symm, upd_same]
  · rw [moveConstruct_signals, upd_same]
  · simp [slot.callback, moveConstruct_callback, hAB.symm]
  · simp [slot.callback, copyConstruct_callback]

/-! ## Emission -/

theorem emit_loop {Cb Args W : Type} (call : Cb → Args → W → W) (args : Args) (h : Heap Cb)
    (l : List Nat) (w : W) :
    l.foldl
        (fun (acc : Heap Cb × W) sl =>
          match slot.callback sl acc.1 with
          | some cb => (acc.1, call cb args acc.2)
          | none => acc)
        (h, w) =
      (h, (l.filterMap fun sl => slot.callback sl h).foldl (fun acc cb => call cb args acc) w) := by
  induction l generalizing w with
  | nil => rfl
  | cons sl l ih =>
    rw [List.foldl_cons]
    cases hcb : slot.callback sl h with
    | none => simp [hcb, ih]
    | some cb => simp [hcb, ih]

/-- C8: `S.emitSignal(args)` leaves the heap (the link graph and the callbacks) as it is and
acts on the outer state by calling, in the order of `S`'s slot sequence, the callback of
exactly the slots of the sequence whose callback is present, each with `args`; slots with an
empty callback contribute nothing.  In particular, when a call appends itself to a log,
the log grows by one `(callback, args)` entry per slot with a callback, in sequence order. -/
theorem emitSignal_calls_present_callbacks_in_order {Cb Args : Type} (S : Nat) (args : Args)
    (h : Heap Cb) :
    (∀ (W : Type) (call : Cb → Args → W → W) (w : W),
      signal.emitSignal call S args h w =
        (h, ((h.slots_ S).filterMap fun sl => slot.callback sl h).foldl
              (fun acc cb => call cb args acc) w)) ∧
    (∀ log : List (Cb × Args),
      signal.emitSignal (fun cb a (l : List (Cb × Args)) => l ++ [(cb, a)]) S args h log =
        (h, log ++ ((h.slots_ S).filterMap fun sl => slot.callback sl h).map
              fun cb => (cb, args))) := by
  have hgen : ∀ (W : Type) (call : Cb → Args → W → W) (w : W),
      signal.emitSignal call S args h w =
        (h, ((h.slots_ S).filterMap fun sl => slot.callback sl h).foldl
              (fun acc cb => call cb args acc) w) :=
    fun W call w => emit_loop call args h (h.slots_ S) w
  refine ⟨hgen, ?_⟩
  intro log
  rw [hgen]
  congr 1
  generalize ((h.slots_ S).filterMap fun sl => slot.callback sl h) = cbs
  induction cbs generalizing log with
  | nil => simp
  | cons cb cbs ih => simp [ih]

/-! ## Assignment onto a slot that still has links -/

/-- C1, evaluated on the code: after `sig.addSlot(&sl1); sl1 = sl0;` (all objects alive,
public operations only) the signal still contains `sl1` while `sl1.isLinked(&sig)` is
false, so link symmetry does not hold in this reachable world. -/
theorem symmetry_lost_after_assignOntoLinked :
    ∃ w : World Unit, ReachablePublic w ∧ 0 ∈ w.liveSignals ∧ 1 ∈ w.liveSlots ∧
      signal.contains 0 1 w.heap = true ∧ slot.isLinkedTo 1 0 w.heap = false :=
  ⟨_, ⟨assignOntoLinked, by decide, rfl⟩, by decide, by decide, by decide, by decide⟩

/-- C2, evaluated on the code: after `sig.addSlot(&sl1); sl1 = sl0;` the destructor of
`sl1` removes nothing from the signal, so the live signal at address 0 keeps the address
of the destroyed slot 1 in its slot collection. -/
theorem dangling_slot_after_destroying_assigned_slot :
    ∃ w : World Unit, Reachable w ∧ 0 ∈ w.liveSignals ∧ 1 ∉ w.liveSlots ∧
      1 ∈ w.heap.slots_ 0 :=
  ⟨_, ⟨assignOntoLinkedThenDestroy, rfl⟩, by decide, by decide, by decide⟩

/-- C6, evaluated on the code: after `sig.addSlot(&sl0); sig.addSlot(&sl1); sl1 = sl0;`
the slot sequence of the signal is `[&sl1, &sl1]`, which holds `sl1` twice. -/
theorem duplicate_slot_after_assignBetweenLinked :
    ∃ w : World Unit, ReachablePublic w ∧ w.heap.slots_ 0 = [1, 1] ∧
      ¬ (w.heap.slots_ 0).Nodup :=
  ⟨_, ⟨assignBetweenLinked, by decide, rfl⟩, by decide, by decide⟩

/-- C7, evaluated on the code: after `sig.addSlot(&sl1); sl1 = sl0;` the public call
`sl1.link(&sig)` passes the `getSignalIndex` test, reaches `slotAddRef` while the signal
already contains `sl1`, and the `ASSERT` fails. -/
theorem assert_fails_in_link_after_assignOntoLinked :
    ∃ w : World Unit, ReachablePublic w ∧ 0 ∈ w.liveSignals ∧ 1 ∈ w.liveSlots ∧
      slot.getSignalIndex 1 0 w.heap = none ∧ signal.contains 0 1 w.heap = true ∧
      (slot.link 1 0 w.heap).isSome = false ∧ ((Op.link 1 0).apply w).isSome = false :=
  ⟨_, ⟨assignOntoLinked, by decide, rfl⟩, by decide, by decide, by decide, by decide,
    by decide, by decide⟩

/-! ## Facts about swap-and-pop removal -/

theorem swapWithBackAndPop_concat (init : List Nat) (b i : Nat) :
    swapWithBackAndPop (init ++ [b]) i = if i < init.length then init.set i b else init := by
  unfold swapWithBackAndPop
  rw [List.getLast?_concat]
  simp only
  by_cases hi : i < init.length
  · rw [if_pos hi, List.set_append, if_pos hi, List.dropLast_concat]
  · rw [if_neg hi, List.set_append, if_neg hi]
    cases (i - init.length) <;> simp

theorem set_perm_cons_erase (x b : Nat) :
    ∀ (l : List Nat) (i : Nat), l[i]? = some x → (l.set i b).Perm (b :: l.erase x)
  | [], i, hi => by simp at hi
  | y :: ys, 0, hi => by
    simp at hi
    subst hi
    simp
  | y :: ys, j + 1, hi => by
    simp only [List.getElem?_cons_succ] at hi
    have ih := set_perm_cons_erase x b ys j hi
    have hx : x ∈ ys := List.getElem?_mem hi
    rw [List.set_cons_succ]
    by_cases hy : y = x
    · subst hy
      rw [List.erase_cons_head]
      calc (y :: ys.set j b).Perm (y :: b :: ys.erase y) := ih.cons y
        _ |>.Perm (b :: y :: ys.erase y) := List.Perm.swap b y _
        _ |>.Perm (b :: ys) := (List.perm_cons_erase hx).symm.cons b
    · rw [List.erase_cons_tail (by simpa using hy)]
      exact (ih.cons y).trans (List.Perm.swap b y _)

theorem swapWithBackAndPop_perm_erase {x : Nat} {l : List Nat} {i : Nat}
    (hi : l[i]? = some x) : (swapWithBackAndPop l i).Perm (l.erase x) := by
  rcases List.eq_nil_or_concat l with hl | ⟨init, b, hl⟩
  · subst hl; simp at hi
  · subst hl
    rw [List.concat_eq_append] at hi ⊢
    rw [swapWithBackAndPop_concat]
    by_cases hlt : i < init.length
    · rw [if_pos hlt]
      have hi2 : init[i]? = some x := by
        rwa [List.getElem?_append_left hlt] at hi
      have hx : x ∈ init := List.getElem?_mem hi2
      rw [List.erase_append_left _ hx]
      exact (set_perm_cons_erase x b init i hi2).trans (List.perm_append_singleton b _).symm
    · rw [if_neg hlt]
      have hlen : i < (init ++ [b]).length := by
        by_contra hge
        rw [List.getElem?_eq_none (by omega)] at hi
        simp at hi
      have hieq : i = init.length := by
        simp at hlen; omega
      subst hieq
      simp at hi
      subst hi
      have h1 : ((init ++ [b]).erase b).Perm ((b :: init).erase b) :=
        (List.perm_append_singleton b init).erase b
      rw [List.erase_cons_head] at h1
      exact h1.symm

theorem removeFirst_perm_erase (x : Nat) (l : List Nat) :
    (removeFirst x l).Perm (l.erase x) := by
  unfold removeFirst
  cases hi : indexOfFirst x l with
  | none =>
    rw [List.erase_of_not_mem (indexOfFirst_eq_none.mp hi)]
  | some i => exact swapWithBackAndPop_perm_erase (indexOfFirst_some_get hi)

theorem removeFirst_nodup {x : Nat} {l : List Nat} (hl : l.Nodup) : (removeFirst x l).Nodup :=
  (removeFirst_perm_erase x l).nodup_iff.mpr (hl.erase x)

theorem not_mem_removeFirst {x : Nat} {l : List Nat} (hl : l.Nodup) : x ∉ removeFirst x l :=
  fun hm => hl.not_mem_erase ((removeFirst_perm_erase x l).mem_iff.mp hm)

theorem removeFirst_of_not_mem {x : Nat} {l : List Nat} (hx : x ∉ l) : removeFirst x l = l := by
  unfold removeFirst
  rw [indexOfFirst_eq_none.mpr hx]

/-! ## Field-wise description of unlinking and linking -/

theorem unlink2_signals {Cb : Type} (T S X : Nat) (b : Bool) (h : Heap Cb) :
    (slot.unlink2 T S b h).signals_ X =
      if X = T then removeFirst S (h.signals_ X) else h.signals_ X := by
  unfold slot.unlink2 slot.getSignalIndex removeFirst
  by_cases hX : X = T
  · subst hX
    cases hi : indexOfFirst S (h.signals_ X) with
    | none => simp
    | some i =>
      cases b
      · simp
      · simp [indexOfFirst_some_get hi, slotRemoveRef_signals]
  · cases hi : indexOfFirst S (h.signals_ T) with
    | none => simp [hX]
    | some i =>
      cases b
      · simp [hX]
      · simp [indexOfFirst_some_get hi, slotRemoveRef_signals, hX]

theorem unlink2_slots {Cb : Type} (T S X : Nat) (b : Bool) (h : Heap Cb) :
    (slot.unlink2 T S b h).slots_ X =
      if b = true ∧ S ∈ h.signals_ T ∧ X = S then removeFirst T (h.slots_ X)
      else h.slots_ X := by
  unfold slot.unlink2 slot.getSignalIndex
  cases hi : indexOfFirst S (h.signals_ T) with
  | none =>
    have hS : S ∉ h.signals_ T := indexOfFirst_eq_none.mp hi
    simp [hS]
  | some i =>
    have hS : S ∈ h.signals_ T := List.getElem?_mem (indexOfFirst_some_get hi)
    cases b
    · simp
    · simp [indexOfFirst_some_get hi, slotRemoveRef_slots, hS]

theorem unlink2_callback {Cb : Type} (T S : Nat) (b : Bool) (h : Heap Cb) :
    (slot.unlink2 T S b h).callback_ = h.callback_ := by
  unfold slot.unlink2 slot.getSignalIndex
  cases hi : indexOfFirst S (h.signals_ T) with
  | none => rfl
  | some i =>
    cases b
    · rfl
    · simp [indexOfFirst_some_get hi, slotRemoveRef_callback]

theorem unlink2_of_not_linked {Cb : Type} {T S : Nat} {h : Heap Cb} (b : Bool)
    (hS : S ∉ h.signals_ T) : slot.unlink2 T S b h = h := by
  unfold slot.unlink2 slot.getSignalIndex
  rw [indexOfFirst_eq_none.mpr hS]

theorem link_of_linked {Cb : Type} {T S : Nat} {h : Heap Cb} (hS : S ∈ h.signals_ T) :
    slot.link T S h = some h := by
  unfold slot.link slot.getSignalIndex
  cases hi : indexOfFirst S (h.signals_ T) with
  | none => exact absurd hS (indexOfFirst_eq_none.mp hi)
  | some i => rfl

theorem link_of_fresh {Cb : Type} {T S : Nat} {h : Heap Cb} (hS : S ∉ h.signals_ T)
    (hT : T ∉ h.slots_ S) :
    slot.link T S h =
      some ⟨upd h.slots_ S (h.slots_ S ++ [T]), upd h.signals_ T (h.signals_ T ++ [S]),
        h.callback_⟩ := by
  unfold slot.link slot.getSignalIndex
  rw [indexOfFirst_eq_none.mpr hS]
  have hcf : signal.contains S T
      ⟨h.slots_, upd h.signals_ T (h.signals_ T ++ [S]), h.callback_⟩ = false := by
    rw [Bool.eq_false_iff]
    intro hc
    exact hT ((contains_iff _ _ _).mp hc)
  simp [signal.slotAddRef, ASSERT, hcf]

theorem slotAddRef_eq_some {Cb : Type} {S T : Nat} {h h1 : Heap Cb}
    (ha : signal.slotAddRef S T h = some h1) :
    T ∉ h.slots_ S ∧ h1 = ⟨upd h.slots_ S (h.slots_ S ++ [T]), h.signals_, h.callback_⟩ := by
  unfold signal.slotAddRef ASSERT at ha
  cases hc : signal.contains S T h with
  | true => simp [hc] at ha
  | false =>
    simp [hc] at ha
    refine ⟨?_, ha.symm⟩
    intro hm
    rw [← contains_iff, hc] at hm
    exact Bool.false_ne_true hm

/-- Whenever `link` returns, the signal list of every slot is either untouched or, for the
linking slot, extended by a signal it did not hold. -/
theorem link_signals {Cb : Type} {T S : Nat} {h h1 : Heap Cb} (hl : slot.link T S h = some h1) :
    h1.signals_ = h.signals_ ∨
      (S ∉ h.signals_ T ∧ h1.signals_ = upd h.signals_ T (h.signals_ T ++ [S])) := by
  unfold slot.link slot.getSignalIndex at hl
  cases hi : indexOfFirst S (h.signals_ T) with
  | some i =>
    rw [hi] at hl
    simp at hl
    exact Or.inl (by rw [hl])
  | none =>
    rw [hi] at hl
    right
    refine ⟨indexOfFirst_eq_none.mp hi, ?_⟩
    have := (slotAddRef_eq_some hl).2
    rw [this]

/-! ## Every slot's signal list stays duplicate-free -/

theorem iterate_preserves {α : Type} (P : α → Prop) (f : α → α) (hf : ∀ a, P a → P (f a))
    (n : Nat) (a : α) (ha : P a) : P (f^[n] a) := by
  induction n generalizing a with
  | zero => exact ha
  | succ n ih => exact ih (f a) (hf a ha)

theorem nodup_upd {f : Nat → List Nat} (hf : ∀ X, (f X).Nodup) (i : Nat) {v : List Nat}
    (hv : v.Nodup) : ∀ X, (upd f i v X).Nodup := by
  intro X
  rw [upd_apply]
  split
  · exact hv
  · exact hf X

theorem relocate_signals_nodup {f : Nat → List Nat} (hf : ∀ X, (f X).Nodup) (A B : Nat) :
    ∀ X, (upd (upd f B (f A)) A [] X).Nodup :=
  nodup_upd (nodup_upd hf B (hf A)) A List.nodup_nil

theorem copyAssign_slotListsNodup {Cb : Type} {h : Heap Cb} (hn : SlotListsNodup h)
    (B A : Nat) : SlotListsNodup (slot.copyAssign B A h) := by
  by_cases hAB : A = B
  · simpa [slot.copyAssign, hAB] using hn
  · intro X
    rw [copyAssign_signals hAB]
    exact relocate_signals_nodup hn A B X

theorem moveAssign_slotListsNodup {Cb : Type} {h : Heap Cb} (hn : SlotListsNodup h)
    (r : Option Cb) (B A : Nat) : SlotListsNodup (slot.moveAssign r B A h) := by
  by_cases hAB : A = B
  · simpa [slot.moveAssign, hAB] using hn
  · intro X
    rw [moveAssign_signals hAB]
    exact relocate_signals_nodup hn A B X

theorem unlink2_slotListsNodup {Cb : Type} {h : Heap Cb} (hn : SlotListsNodup h)
    (T S : Nat) (b : Bool) : SlotListsNodup (slot.unlink2 T S b h) := by
  intro X
  rw [unlink2_signals]
  split
  · exact removeFirst_nodup (hn X)
  · exact hn X

theorem unlinkAll_signals {Cb : Type} (T : Nat) (h : Heap Cb) :
    (slot.unlinkAll T h).signals_ = upd h.signals_ T [] := by
  unfold slot.unlinkAll
  simp only
  rw [foldl_frame (fun s acc => signal.slotRemoveRef s T acc) (fun h => h.signals_)
    (fun s h => slotRemoveRef_signals s T h)]

theorem unlinkAll_slotListsNodup {Cb : Type} {h : Heap Cb} (hn : SlotListsNodup h)
    (T : Nat) : SlotListsNodup (slot.unlinkAll T h) := by
  intro X
  rw [unlinkAll_signals]
  exact nodup_upd hn T List.nodup_nil X

theorem link_slotListsNodup {Cb : Type} {h h1 : Heap Cb} (hn : SlotListsNodup h) {T S : Nat}
    (hl : slot.link T S h = some h1) : SlotListsNodup h1 := by
  rcases link_signals hl with he | ⟨hS, he⟩
  · intro X
    rw [he]
    exact hn X
  · intro X
    rw [he]
    refine nodup_upd hn T ?_ X
    rw [List.nodup_append]
    exact ⟨hn T, List.nodup_singleton S, by simpa using hS⟩

theorem addSlot_slotListsNodup {Cb : Type} {h h1 : Heap Cb} (hn : SlotListsNodup h) {S : Nat}
    {T : Option Nat} (ha : signal.addSlot S T h = some h1) : SlotListsNodup h1 := by
  unfold signal.addSlot at ha
  cases T with
  | none =>
    simp at ha
    exact ha ▸ hn
  | some t =>
    simp only at ha
    split at ha
    · simp at ha
      exact ha ▸ hn
    · exact link_slotListsNodup hn ha

theorem removeSlot_slotListsNodup {Cb : Type} {h : Heap Cb} (hn : SlotListsNodup h) (S : Nat)
    (T : Option Nat) : SlotListsNodup (signal.removeSlot S T h) := by
  cases T with
  | none => exact hn
  | some t => exact unlink2_slotListsNodup hn t S true

theorem clear_signals {Cb : Type} (S X : Nat) (h : Heap Cb) :
    (signal.clear S h).signals_ X = (removeFirst S)^[(h.slots_ S).count X] (h.signals_ X) := by
  unfold signal.clear
  simp only
  exact foldl_pointwise (fun s acc => slot.unlink2 s S false acc) (fun h => h.signals_)
    (removeFirst S) (fun s X h => unlink2_signals s S X false h) _ h X

theorem clear_slotListsNodup {Cb : Type} {h : Heap Cb} (hn : SlotListsNodup h) (S : Nat) :
    SlotListsNodup (signal.clear S h) := by
  intro X
  rw [clear_signals]
  exact iterate_preserves List.Nodup (removeFirst S) (fun _ ha => removeFirst_nodup ha) _ _
    (hn X)

/-- One client statement keeps every slot's signal list duplicate-free. -/
theorem apply_slotListsNodup {Cb : Type} (op : Op Cb) (w w1 : World Cb)
    (hn : SlotListsNodup w.heap) (ha : op.apply w = some w1) : SlotListsNodup w1.heap := by
  cases op with
  | newSignal S =>
    simp only [Op.apply] at ha
    split at ha
    · simp at ha
    · simp at ha; subst ha; exact hn
  | newSlot T cb =>
    simp only [Op.apply] at ha
    split at ha
    · simp at ha
    · simp at ha; subst ha; exact nodup_upd hn T List.nodup_nil
  | copyConstruct T src =>
    simp only [Op.apply] at ha
    split at ha
    · simp at ha; subst ha
      intro X
      show ((slot.copyConstruct T src w.heap).signals_ X).Nodup
      rw [copyConstruct_signals]
      exact relocate_signals_nodup hn src T X
    · simp at ha
  | moveConstruct r T src =>
    simp only [Op.apply] at ha
    split at ha
    · simp at ha; subst ha
      intro X
      show ((slot.moveConstruct r T src w.heap).signals_ X).Nodup
      rw [moveConstruct_signals]
      exact relocate_signals_nodup hn src T X
    · simp at ha
  | copyAssign T src =>
    simp only [Op.apply] at ha
    split at ha
    · simp at ha; subst ha; exact copyAssign_slotListsNodup hn T src
    · simp at ha
  | moveAssign r T src =>
    simp only [Op.apply] at ha
    split at ha
    · simp at ha; subst ha; exact moveAssign_slotListsNodup hn r T src
    · simp at ha
  | setCallback T cb =>
    simp only [Op.apply] at ha
    split at ha
    · simp at ha; subst ha; exact hn
    · simp at ha
  | link T S =>
    simp only [Op.apply] at ha
    split at ha
    · cases hl : slot.link T S w.heap with
      | none => simp [hl] at ha
      | some h1 =>
        simp [hl] at ha; subst ha
        exact link_slotListsNodup hn hl
    · simp at ha
  | unlink T S =>
    simp only [Op.apply] at ha
    split at ha
    · simp at ha; subst ha; exact unlink2_slotListsNodup hn T S true
    · simp at ha
  | unlinkAll T =>
    simp only [Op.apply] at ha
    split at ha
    · simp at ha; subst ha; exact unlinkAll_slotListsNodup hn T
    · simp at ha
  | addSlot S T =>
    simp only [Op.apply] at ha
    split at ha
    · cases hl : signal.addSlot S T w.heap with
      | none => simp [hl] at ha
      | some h1 =>
        simp [hl] at ha; subst ha
        exact addSlot_slotListsNodup hn hl
    · simp at ha
  | removeSlot S T =>
    simp only [Op.apply] at ha
    split at ha
    · simp at ha; subst ha; exact removeSlot_slotListsNodup hn S T
    · simp at ha
  | clear S =>
    simp only [Op.apply] at ha
    split at ha
    · simp at ha; subst ha; exact clear_slotListsNodup hn S
    · simp at ha
  | emitSignal S =>
    simp only [Op.apply] at ha
    split at ha
    · simp at ha; subst ha; exact hn
    · simp at ha
  | destroySignal S =>
    simp only [Op.apply] at ha
    split at ha
    · simp at ha; subst ha; exact clear_slotListsNodup hn S
    · simp at ha
  | destroySlot T =>
    simp only [Op.apply] at ha
    split at ha
    · simp at ha; subst ha; exact unlinkAll_slotListsNodup hn T
    · simp at ha

/-- A heap property kept by every client statement is kept by every client program. -/
theorem run_preserves {Cb : Type} (P : Heap Cb → Prop)
    (hstep : ∀ (op : Op Cb) (w w1 : World Cb), P w.heap → op.apply w = some w1 → P w1.heap)
    (ops : List (Op Cb)) (w w1 : World Cb) (hP : P w.heap) (hr : run ops w = some w1) :
    P w1.heap := by
  induction ops generalizing w with
  | nil =>
    simp [run] at hr
    exact hr ▸ hP
  | cons op ops ih =>
    simp only [run] at hr
    cases ha : op.apply w with
    | none => simp [ha] at hr
    | some w2 =>
      rw [ha] at hr
      exact ih w2 (hstep op w w2 hP ha) hr

theorem reachable_slotListsNodup {Cb : Type} {w : World Cb} (hw : Reachable w) :
    SlotListsNodup w.heap := by
  obtain ⟨ops, hr⟩ := hw
  exact run_preserves SlotListsNodup apply_slotListsNodup ops (World.init Cb) w
    (fun _ => List.nodup_nil) hr

/-! ## Concrete states -/

theorem fanIn_symmetric : Symmetric fanIn := by
  rw [symmetric_iff]
  intro S T
  by_cases hS0 : S = 0 <;> by_cases hS1 : S = 1 <;> by_cases hT0 : T = 0 <;>
    by_cases hT2 : T = 2 <;> simp [fanIn, upd_apply, *]

theorem fanIn_duplicateFree : DuplicateFree fanIn := by
  constructor
  · intro S
    by_cases hS0 : S = 0 <;> by_cases hS1 : S = 1 <;> simp [fanIn, upd_apply, *]
  · intro T
    by_cases hT0 : T = 0 <;> by_cases hT2 : T = 2 <;> simp [fanIn, upd_apply, *]

theorem linkedWorld_reachable : Reachable linkedWorld :=
  ⟨[.newSignal 0, .newSlot 0 none, .addSlot 0 (some 0)], rfl⟩

/-! ## Witnesses for copy and move -/

/-- Witness for `copy_transfers_links`: slot 0 of `fanIn`, linked to two signals, is
relocated into slot 1. -/
theorem copy_transfers_links_witness :
    LinksTransferred fanIn (slot.copyConstruct 1 0 fanIn) 0 1 ∧
      LinksTransferred fanIn (slot.copyAssign 1 0 fanIn) 0 1 :=
  copy_transfers_links fanIn 0 1 (by decide) fanIn_symmetric
    (fun S => List.nodup_iff_count_le_one.mp (fanIn_duplicateFree.1 S) 0)

/-- Witness for `relocation_substitutes_in_place` on `fanIn`, where the signal at address 0
holds `[2, 0]` before and `[2, 1]` after relocating slot 0 into slot 1. -/
theorem relocation_substitutes_in_place_witness :
    (slot.copyAssign 1 0 fanIn).slots_ 0 = [2, 1] ∧
    (SubstitutedInPlace fanIn (slot.copyConstruct 1 0 fanIn) 0 1 ∧
      SubstitutedInPlace fanIn (slot.copyAssign 1 0 fanIn) 0 1 ∧
      SubstitutedInPlace fanIn (slot.moveConstruct none 1 0 fanIn) 0 1 ∧
      SubstitutedInPlace fanIn (slot.moveAssign none 1 0 fanIn) 0 1) :=
  ⟨by decide,
   relocation_substitutes_in_place fanIn 0 1 (by decide) fanIn_symmetric fanIn_duplicateFree
    none⟩

/-- Witness for `move_parity` on `fanIn`, slot 0 relocated into slot 1. -/
theorem move_parity_witness :
    (SameLinks (slot.moveAssign none 1 0 fanIn) (slot.copyAssign 1 0 fanIn) ∧
      (slot.moveAssign none 1 0 fanIn).signals_ 1 = fanIn.signals_ 0 ∧
      (slot.moveAssign none 1 0 fanIn).signals_ 0 = [] ∧
      slot.callback 1 (slot.moveAssign none 1 0 fanIn) = slot.callback 0 fanIn ∧
      slot.callback 1 (slot.copyAssign 1 0 fanIn) = slot.callback 0 fanIn) ∧
    (SameLinks (slot.moveConstruct none 1 0 fanIn) (slot.copyConstruct 1 0 fanIn) ∧
      (slot.moveConstruct none 1 0 fanIn).signals_ 1 = fanIn.signals_ 0 ∧
      (slot.moveConstruct none 1 0 fanIn).signals_ 0 = [] ∧
      slot.callback 1 (slot.moveConstruct none 1 0 fanIn) = slot.callback 0 fanIn ∧
      slot.callback 1 (slot.copyConstruct 1 0 fanIn) = slot.callback 0 fanIn) :=
  move_parity fanIn 0 1 (by decide) none

/-! ## Linking and unlinking -/

theorem addSlot_twice {Cb : Type} (S T : Nat) (h : Heap Cb) :
    ∃ h1, signal.addSlot S (some T) h = some h1 ∧ signal.addSlot S (some T) h1 = some h1 := by
  cases hc : signal.contains S T h with
  | true => exact ⟨h, by simp [signal.addSlot, hc], by simp [signal.addSlot, hc]⟩
  | false =>
    have hT : T ∉ h.slots_ S := by
      intro hm
      rw [← contains_iff, hc] at hm
      exact Bool.false_ne_true hm
    by_cases hS : S ∈ h.signals_ T
    · exact ⟨h, by simp [signal.addSlot, hc, link_of_linked hS],
        by simp [signal.addSlot, hc, link_of_linked hS]⟩
    · refine ⟨_, by simp only [signal.addSlot, hc]; exact link_of_fresh hS hT, ?_⟩
      simp [signal.addSlot, signal.contains]

theorem removeSlot_twice {Cb : Type} (S T : Nat) {h : Heap Cb} (hn : (h.signals_ T).Nodup) :
    signal.removeSlot S (some T) (signal.removeSlot S (some T) h) =
      signal.removeSlot S (some T) h := by
  simp only [signal.removeSlot]
  apply unlink2_of_not_linked
  rw [unlink2_signals, if_pos rfl]
  exact not_mem_removeFirst hn

/-- C9: in every world a client program can reach, for every signal `S` and slot `T`:
`S.addSlot(&T)` returns, and a second `S.addSlot(&T)` leaves the state it produced
unchanged (hence the same `S.size()` and the same signal list of `T`); a second
`S.removeSlot(&T)` leaves the state produced by the first unchanged; linking or adding an
already linked pair and unlinking or removing an unlinked pair leave the whole state
unchanged. -/
theorem link_unlink_idempotent {Cb : Type} (w : World Cb) (hw : Reachable w) (S T : Nat) :
    (∃ h1, signal.addSlot S (some T) w.heap = some h1 ∧
        signal.addSlot S (some T) h1 = some h1) ∧
    signal.removeSlot S (some T) (signal.removeSlot S (some T) w.heap) =
      signal.removeSlot S (some T) w.heap ∧
    (slot.isLinkedTo T S w.heap = true → slot.link T S w.heap = some w.heap) ∧
    (signal.contains S T w.heap = true → signal.addSlot S (some T) w.heap = some w.heap) ∧
    (slot.isLinkedTo T S w.heap = false →
      slot.unlink T S w.heap = w.heap ∧ signal.removeSlot S (some T) w.heap = w.heap) := by
  refine ⟨addSlot_twice S T w.heap, removeSlot_twice S T (reachable_slotListsNodup hw T),
    ?_, ?_, ?_⟩
  · intro hl
    exact link_of_linked ((isLinkedTo_iff T S w.heap).mp hl)
  · intro hc
    simp [signal.addSlot, hc]
  · intro hl
    have hS : S ∉ w.heap.signals_ T := by
      intro hm
      rw [← isLinkedTo_iff, hl] at hm
      exact Bool.false_ne_true hm
    exact ⟨unlink2_of_not_linked true hS, unlink2_of_not_linked true hS⟩

/-- Witness for `link_unlink_idempotent`: the world after `sig.addSlot(&sl)`. -/
theorem link_unlink_idempotent_witness :
    (∃ h1, signal.addSlot 0 (some 0) linkedWorld.heap = some h1 ∧
        signal.addSlot 0 (some 0) h1 = some h1) ∧
    signal.removeSlot 0 (some 0) (signal.removeSlot 0 (some 0) linkedWorld.heap) =
      signal.removeSlot 0 (some 0) linkedWorld.heap ∧
    (slot.isLinkedTo 0 0 linkedWorld.heap = true →
      slot.link 0 0 linkedWorld.heap = some linkedWorld.heap) ∧
    (signal.contains 0 0 linkedWorld.heap = true →
      signal.addSlot 0 (some 0) linkedWorld.heap = some linkedWorld.heap) ∧
    (slot.isLinkedTo 0 0 linkedWorld.heap = false →
      slot.unlink 0 0 linkedWorld.heap = linkedWorld.heap ∧
        signal.removeSlot 0 (some 0) linkedWorld.heap = linkedWorld.heap) :=
  link_unlink_idempotent linkedWorld linkedWorld_reachable 0 0

/-- C10: in a state in which link symmetry holds, for a slot `T` not linked to the signal
`S`, `S.addSlot(&T)` and `T.link(&S)` return the same state; in it the slot sequence of `S`
is the old one with `T` appended (`S.size()` grows by one), the signal list of `T` is the
old one with `S` appended, `S.contains(&T)` and `T.isLinked(&S)` hold, and the collections
of every other signal and slot, and all callbacks, are unchanged. -/
theorem addSlot_eq_link_appends {Cb : Type} (h : Heap Cb) (S T : Nat) (hsym : Symmetric h)
    (hnot : slot.isLinkedTo T S h = false) :
    ∃ h1, signal.addSlot S (some T) h = some h1 ∧ slot.link T S h = some h1 ∧
      h1.slots_ S = h.slots_ S ++ [T] ∧ signal.size S h1 = signal.size S h + 1 ∧
      h1.signals_ T = h.signals_ T ++ [S] ∧
      signal.contains S T h1 = true ∧ slot.isLinkedTo T S h1 = true ∧
      (∀ X, X ≠ S → h1.slots_ X = h.slots_ X) ∧
      (∀ X, X ≠ T → h1.signals_ X = h.signals_ X) ∧
      h1.callback_ = h.callback_ := by
  have hc : signal.contains S T h = false := by rw [hsym S T, hnot]
  have hS : S ∉ h.signals_ T := by
    intro hm
    rw [← isLinkedTo_iff, hnot] at hm
    exact Bool.false_ne_true hm
  have hT : T ∉ h.slots_ S := by
    intro hm
    rw [← contains_iff, hc] at hm
    exact Bool.false_ne_true hm
  refine ⟨_, by simp only [signal.addSlot, hc]; exact link_of_fresh hS hT, link_of_fresh hS hT,
    ?_, ?_, ?_, ?_, ?_, ?_, ?_, rfl⟩
  · simp
  · simp [signal.size]
  · simp
  · simp [signal.contains]
  · rw [isLinkedTo_iff]
    simp
  · intro X hX
    simp [hX]
  · intro X hX
    simp [hX]

/-- Witness for `addSlot_eq_link_appends`: in `fanIn` the slot at address 2 is not linked to
the signal at address 1. -/
theorem addSlot_eq_link_appends_witness :
    ∃ h1, signal.addSlot 1 (some 2) fanIn = some h1 ∧ slot.link 2 1 fanIn = some h1 ∧
      h1.slots_ 1 = fanIn.slots_ 1 ++ [2] ∧ signal.size 1 h1 = signal.size 1 fanIn + 1 ∧
      h1.signals_ 2 = fanIn.signals_ 2 ++ [1] ∧
      signal.contains 1 2 h1 = true ∧ slot.isLinkedTo 2 1 h1 = true ∧
      (∀ X, X ≠ 1 → h1.slots_ X = fanIn.slots_ X) ∧
      (∀ X, X ≠ 2 → h1.signals_ X = fanIn.signals_ X) ∧
      h1.callback_ = fanIn.callback_ :=
  addSlot_eq_link_appends fanIn 1 2 fanIn_symmetric (by decide)

/-! ## Self-assignment and callbacks -/

/-- C16: copy-assigning or move-assigning a slot to itself returns the heap it was given,
so the callback of `A`, the signal list of `A` and the slot sequence of every signal are
unchanged. -/
theorem self_assignment_is_noop {Cb : Type} (h : Heap Cb) (A : Nat) (r : Option Cb) :
    slot.copyAssign A A h = h ∧ slot.moveAssign r A A h = h := by
  simp [slot.copyAssign, slot.moveAssign]

theorem setCallback_frame {Cb : Type} (B : Nat) (cb : Option Cb) (h : Heap Cb) :
    slot.callback B (slot.setCallback B cb h) = cb ∧
    (∀ X, X ≠ B → slot.callback X (slot.setCallback B cb h) = slot.callback X h) ∧
    (slot.setCallback B cb h).slots_ = h.slots_ ∧
    (slot.setCallback B cb h).signals_ = h.signals_ := by
  refine ⟨by simp [slot.callback, slot.setCallback], ?_, rfl, rfl⟩
  intro X hX
  simp [slot.callback, slot.setCallback, hX]

/-- C15: for distinct slots `A` and `B`, after `B` is copy-constructed or copy-assigned from
`A`, the callback of `B` is the former callback of `A`, the callback of `A` (and of every
slot other than `B`) is unchanged, and the signal list of `A` is empty; `setCallback` on
`B`, in any state, sets the callback of `B`, leaves the callback of every other slot and
leaves every slot sequence and signal list as it was. -/
theorem copy_carries_callback {Cb : Type} (h : Heap Cb) (A B : Nat) (hAB : A ≠ B)
    (cb : Option Cb) :
    (slot.callback B (slot.copyConstruct B A h) = slot.callback A h ∧
      (∀ X, X ≠ B → slot.callback X (slot.copyConstruct B A h) = slot.callback X h) ∧
      (slot.copyConstruct B A h).signals_ A = []) ∧
    (slot.callback B (slot.copyAssign B A h) = slot.callback A h ∧
      (∀ X, X ≠ B → slot.callback X (slot.copyAssign B A h) = slot.callback X h) ∧
      (slot.copyAssign B A h).signals_ A = []) ∧
    (∀ h1 : Heap Cb,
      slot.callback B (slot.setCallback B cb h1) = cb ∧
      (∀ X, X ≠ B → slot.callback X (slot.setCallback B cb h1) = slot.callback X h1) ∧
      (slot.setCallback B cb h1).slots_ = h1.slots_ ∧
      (slot.setCallback B cb h1).signals_ = h1.signals_) := by
  refine ⟨⟨?_, ?_, ?_⟩, ⟨?_, ?_, ?_⟩, fun h1 => setCallback_frame B cb h1⟩
  · simp [slot.callback, copyConstruct_callback]
  · intro X hX
    simp [slot.callback, copyConstruct_callback, hX]
  · rw [copyConstruct_signals, upd_same]
  · simp [slot.callback, copyAssign_callback hAB]
  · intro X hX
    simp [slot.callback, copyAssign_callback hAB, hX]
  · rw [copyAssign_signals hAB, upd_same]

/-- Witness for `copy_carries_callback`: slot 0 of `fanIn`, which has a callback, is copied
into slot 1. -/
theorem copy_carries_callback_witness :
    slot.callback 1 (slot.copyAssign 1 0 fanIn) = some () ∧
    ((slot.callback 1 (slot.copyConstruct 1 0 fanIn) = slot.callback 0 fanIn ∧
      (∀ X, X ≠ 1 → slot.callback X (slot.copyConstruct 1 0 fanIn) = slot.callback X fanIn) ∧
      (slot.copyConstruct 1 0 fanIn).signals_ 0 = []) ∧
    (slot.callback 1 (slot.copyAssign 1 0 fanIn) = slot.callback 0 fanIn ∧
      (∀ X, X ≠ 1 → slot.callback X (slot.copyAssign 1 0 fanIn) = slot.callback X fanIn) ∧
      (slot.copyAssign 1 0 fanIn).signals_ 0 = []) ∧
    (∀ h1 : Heap Unit,
      slot.callback 1 (slot.setCallback 1 none h1) = none ∧
      (∀ X, X ≠ 1 → slot.callback X (slot.setCallback 1 none h1) = slot.callback X h1) ∧
      (slot.setCallback 1 none h1).slots_ = h1.slots_ ∧
      (slot.setCallback 1 none h1).signals_ = h1.signals_)) :=
  ⟨by decide, copy_carries_callback fanIn 0 1 (by decide) none⟩

/-! ## The shape of swap-and-pop removal -/

theorem indexOfFirst_getElem_of_nodup {l : List Nat} (hn : l.Nodup) {i : Nat}
    (hi : i < l.length) : indexOfFirst l[i] l = some i := by
  cases hj : indexOfFirst l[i] l with
  | none => exact absurd (List.getElem_mem hi) (indexOfFirst_eq_none.mp hj)
  | some j =>
    obtain ⟨hjl, hje⟩ := List.getElem?_eq_some.mp (indexOfFirst_some_get hj)
    rw [hn.getElem_inj_iff.mp hje]

theorem swapWithBackAndPop_length {l : List Nat} {i : Nat} (hi : i < l.length) :
    (swapWithBackAndPop l i).length = l.length - 1 := by
  unfold swapWithBackAndPop
  cases hb : l.getLast? with
  | none =>
    rw [List.getLast?_eq_none_iff] at hb
    subst hb
    simp at hi
  | some b => simp

theorem swapWithBackAndPop_getElem? {l : List Nat} {i j : Nat} (hi : i < l.length)
    (hj : j < l.length - 1) :
    (swapWithBackAndPop l i)[j]? = if j = i then l[l.length - 1]? else l[j]? := by
  unfold swapWithBackAndPop
  cases hb : l.getLast? with
  | none =>
    rw [List.getLast?_eq_none_iff] at hb
    subst hb
    simp at hi
  | some b =>
    simp only
    rw [List.getElem?_dropLast, List.length_set, if_pos hj, List.getElem?_set]
    by_cases hji : j = i
    · subst hji
      rw [if_pos rfl, if_pos hi, if_pos rfl, ← hb, List.getLast?_eq_getElem?]
    · rw [if_neg (fun e => hji e.symm), if_neg hji]

theorem swapWithBackAndPop_last {l : List Nat} {i : Nat} (hi : i = l.length - 1) :
    swapWithBackAndPop l i = l.dropLast := by
  rcases List.eq_nil_or_concat l with hl | ⟨init, b, hl⟩
  · subst hl; rfl
  · subst hl
    rw [List.concat_eq_append] at hi ⊢
    rw [swapWithBackAndPop_concat, List.dropLast_concat]
    simp at hi
    simp [hi]

/-- C18: when the slot sequence `l` of signal `S` is duplicate-free and `i` is one of its
indices, `slotRemoveRef(l[i])` turns it into the sequence of length `n - 1` that holds
`l[n-1]` at position `i` and `l[j]` at every other position `j < n - 1` (it is `l` with
position `i` overwritten by the last entry and the last position dropped); for `i = n - 1`
that is `l` without its last entry; `removeSlot` of a slot linked to `S` does exactly this
to the sequence; and `slotRemoveRef` of a slot that is not in the sequence returns the
heap unchanged. -/
theorem slotRemoveRef_swap_and_pop {Cb : Type} (h : Heap Cb) (S i : Nat)
    (hn : (h.slots_ S).Nodup) (hi : i < (h.slots_ S).length) :
    (signal.slotRemoveRef S (h.slots_ S)[i] h).slots_ S =
        ((h.slots_ S).set i ((h.slots_ S).getLast (List.ne_nil_of_length_pos (by omega)))).dropLast ∧
    ((signal.slotRemoveRef S (h.slots_ S)[i] h).slots_ S).length = (h.slots_ S).length - 1 ∧
    (∀ j, j < (h.slots_ S).length - 1 →
      ((signal.slotRemoveRef S (h.slots_ S)[i] h).slots_ S)[j]? =
        if j = i then (h.slots_ S)[(h.slots_ S).length - 1]? else (h.slots_ S)[j]?) ∧
    (i = (h.slots_ S).length - 1 →
      (signal.slotRemoveRef S (h.slots_ S)[i] h).slots_ S = (h.slots_ S).dropLast) ∧
    (∀ X, X ≠ S → (signal.slotRemoveRef S (h.slots_ S)[i] h).slots_ X = h.slots_ X) ∧
    (S ∈ h.signals_ (h.slots_ S)[i] →
      (signal.removeSlot S (some (h.slots_ S)[i]) h).slots_ S =
        (signal.slotRemoveRef S (h.slots_ S)[i] h).slots_ S) ∧
    (∀ T, T ∉ h.slots_ S → signal.slotRemoveRef S T h = h) := by
  have hrem : (signal.slotRemoveRef S (h.slots_ S)[i] h).slots_ S =
      swapWithBackAndPop (h.slots_ S) i := by
    rw [slotRemoveRef_slots, if_pos rfl]
    unfold removeFirst
    rw [indexOfFirst_getElem_of_nodup hn hi]
  refine ⟨?_, ?_, ?_, ?_, ?_, ?_, ?_⟩
  · rw [hrem]
    unfold swapWithBackAndPop
    rw [List.getLast?_eq_getLast _ (List.ne_nil_of_length_pos (by omega))]
  · rw [hrem, swapWithBackAndPop_length hi]
  · intro j hj
    rw [hrem, swapWithBackAndPop_getElem? hi hj]
  · intro hlast
    rw [hrem, swapWithBackAndPop_last hlast]
  · intro X hX
    rw [slotRemoveRef_slots, if_neg hX]
  · intro hS
    simp only [signal.removeSlot]
    rw [unlink2_slots, slotRemoveRef_slots]
    simp [hS]
  · intro T hT
    unfold signal.slotRemoveRef
    rw [indexOfFirst_eq_none.mpr hT]

/-- Witness for `slotRemoveRef_swap_and_pop`: removing the first entry of the sequence
`[2, 0]` of signal 0 in `fanIn` leaves `[0]`. -/
theorem slotRemoveRef_swap_and_pop_witness :
    (signal.slotRemoveRef 0 2 fanIn).slots_ 0 = [0] ∧
    ((signal.slotRemoveRef 0 2 fanIn).slots_ 0).length = (fanIn.slots_ 0).length - 1 ∧
    (∀ j, j < (fanIn.slots_ 0).length - 1 →
      ((signal.slotRemoveRef 0 2 fanIn).slots_ 0)[j]? =
        if j = 0 then (fanIn.slots_ 0)[(fanIn.slots_ 0).length - 1]? else (fanIn.slots_ 0)[j]?) :=
  have hw := slotRemoveRef_swap_and_pop fanIn 0 0 (fanIn_duplicateFree.1 0) (by decide)
  ⟨by decide, hw.2.1, hw.2.2.1⟩

/-! ## Membership and length after removal -/

theorem mem_removeFirst_of_ne {x y : Nat} (hxy : y ≠ x) (l : List Nat) :
    y ∈ removeFirst x l ↔ y ∈ l := by
  rw [(removeFirst_perm_erase x l).mem_iff]
  exact List.mem_erase_of_ne hxy

theorem mem_of_mem_removeFirst {x y : Nat} {l : List Nat} (hy : y ∈ removeFirst x l) :
    y ∈ l :=
  List.mem_of_mem_erase ((removeFirst_perm_erase x l).mem_iff.mp hy)

theorem removeFirst_length {x : Nat} {l : List Nat} (hx : x ∈ l) :
    (removeFirst x l).length = l.length - 1 := by
  rw [(removeFirst_perm_erase x l).length_eq, List.length_erase_of_mem hx]

theorem not_mem_removeFirst_of_count_le_one {x : Nat} {l : List Nat} (hc : l.count x ≤ 1) :
    x ∉ removeFirst x l := by
  intro hm
  have h1 : 0 < (removeFirst x l).count x := List.count_pos_iff.mpr hm
  rw [(removeFirst_perm_erase x l).count_eq, List.count_erase_self] at h1
  omega

/-- Repeating `removeFirst` on a vector that holds `x` at most once: the first round
removes it, the later rounds find nothing. -/
theorem iterate_removeFirst_eq {x : Nat} {l : List Nat} (hc : l.count x ≤ 1) {k : Nat}
    (hk : 0 < k) : (removeFirst x)^[k] l = removeFirst x l := by
  obtain ⟨m, rfl⟩ : ∃ m, k = m + 1 := ⟨k - 1, by omega⟩
  rw [Function.iterate_succ_apply]
  exact Function.iterate_fixed
    (removeFirst_of_not_mem (not_mem_removeFirst_of_count_le_one hc)) m

theorem iterate_removeFirst_of_not_mem {x : Nat} {l : List Nat} (hx : x ∉ l) (k : Nat) :
    (removeFirst x)^[k] l = l :=
  Function.iterate_fixed (removeFirst_of_not_mem hx) k

theorem mem_iterate_removeFirst_of_ne {x y : Nat} (hxy : y ≠ x) (k : Nat) (l : List Nat) :
    y ∈ (removeFirst x)^[k] l ↔ y ∈ l := by
  induction k generalizing l with
  | zero => rfl
  | succ k ih => rw [Function.iterate_succ_apply, ih, mem_removeFirst_of_ne hxy]

theorem mem_of_mem_iterate_removeFirst {x y : Nat} {k : Nat} {l : List Nat}
    (hy : y ∈ (removeFirst x)^[k] l) : y ∈ l := by
  induction k generalizing l with
  | zero => exact hy
  | succ k ih =>
    rw [Function.iterate_succ_apply] at hy
    exact mem_of_mem_removeFirst (ih hy)

theorem iterate_removeFirst_nodup {x : Nat} {l : List Nat} (hl : l.Nodup) (k : Nat) :
    ((removeFirst x)^[k] l).Nodup :=
  iterate_preserves List.Nodup (removeFirst x) (fun _ ha => removeFirst_nodup ha) k l hl

theorem count_le_one_of_nodup {l : List Nat} (hl : l.Nodup) (x : Nat) : l.count x ≤ 1 :=
  List.nodup_iff_count_le_one.mp hl x

/-! ## Field-wise description of the two bulk removals -/

theorem unlinkAll_slots {Cb : Type} (T X : Nat) (h : Heap Cb) :
    (slot.unlinkAll T h).slots_ X = (removeFirst T)^[(h.signals_ T).count X] (h.slots_ X) := by
  unfold slot.unlinkAll
  simp only
  exact foldl_pointwise (fun s acc => signal.slotRemoveRef s T acc) (fun h => h.slots_)
    (removeFirst T) (fun s X h => slotRemoveRef_slots s T X h) _ h X

theorem unlinkAll_callback {Cb : Type} (T : Nat) (h : Heap Cb) :
    (slot.unlinkAll T h).callback_ = h.callback_ := by
  unfold slot.unlinkAll
  simp only
  rw [foldl_frame (fun s acc => signal.slotRemoveRef s T acc) (fun h => h.callback_)
    (fun s h => slotRemoveRef_callback s T h)]

theorem clear_slots {Cb : Type} (S : Nat) (h : Heap Cb) :
    (signal.clear S h).slots_ = upd h.slots_ S [] := by
  unfold signal.clear
  simp only
  rw [foldl_frame (fun s acc => slot.unlink2 s S false acc) (fun h => h.slots_)
    (fun s h => by funext X; simp [unlink2_slots])]

theorem clear_callback {Cb : Type} (S : Nat) (h : Heap Cb) :
    (signal.clear S h).callback_ = h.callback_ := by
  unfold signal.clear
  simp only
  rw [foldl_frame (fun s acc => slot.unlink2 s S false acc) (fun h => h.callback_)
    (fun s h => unlink2_callback s S false h)]

/-! ## Point removal -/

/-- C11: in a symmetric, duplicate-free state with `T` linked to `S`, `S.removeSlot(&T)` is
the same as `T.unlink(&S)`; afterwards `S.contains(&T)` and `T.isLinked(&S)` are false,
`S.size()` is smaller by exactly one, and for every pair `(S1, T1)` other than `(S, T)` the
values of `S1.contains(&T1)` and `T1.isLinked(&S1)` are unchanged. -/
theorem removeSlot_removes_one_link {Cb : Type} (h : Heap Cb) (S T : Nat) (hsym : Symmetric h)
    (hdup : DuplicateFree h) (hl : slot.isLinkedTo T S h = true) :
    signal.removeSlot S (some T) h = slot.unlink T S h ∧
    signal.contains S T (signal.removeSlot S (some T) h) = false ∧
    slot.isLinkedTo T S (signal.removeSlot S (some T) h) = false ∧
    signal.size S (signal.removeSlot S (some T) h) + 1 = signal.size S h ∧
    (∀ S1 T1, ¬ (S1 = S ∧ T1 = T) →
      signal.contains S1 T1 (signal.removeSlot S (some T) h) = signal.contains S1 T1 h ∧
      slot.isLinkedTo T1 S1 (signal.removeSlot S (some T) h) = slot.isLinkedTo T1 S1 h) := by
  have hS : S ∈ h.signals_ T := (isLinkedTo_iff T S h).mp hl
  have hT : T ∈ h.slots_ S := ((symmetric_iff h).mp hsym S T).mpr hS
  have hslots : ∀ X, (signal.removeSlot S (some T) h).slots_ X =
      if X = S then removeFirst T (h.slots_ X) else h.slots_ X := by
    intro X
    simp only [signal.removeSlot]
    rw [unlink2_slots]
    by_cases hX : X = S <;> simp [hS, hX]
  have hsigs : ∀ X, (signal.removeSlot S (some T) h).signals_ X =
      if X = T then removeFirst S (h.signals_ X) else h.signals_ X := by
    intro X
    simp only [signal.removeSlot]
    rw [unlink2_signals]
  refine ⟨rfl, ?_, ?_, ?_, ?_⟩
  · rw [Bool.eq_false_iff]
    intro hc
    rw [contains_iff, hslots, if_pos rfl] at hc
    exact not_mem_removeFirst (hdup.1 S) hc
  · rw [Bool.eq_false_iff]
    intro hc
    rw [isLinkedTo_iff, hsigs, if_pos rfl] at hc
    exact not_mem_removeFirst (hdup.2 T) hc
  · simp only [signal.size]
    rw [hslots, if_pos rfl, removeFirst_length hT]
    have : 0 < (h.slots_ S).length := List.length_pos_of_mem hT
    omega
  · intro S1 T1 hne
    constructor
    · rw [Bool.eq_iff_iff, contains_iff, contains_iff, hslots]
      by_cases hS1 : S1 = S
      · have hT1 : T1 ≠ T := fun e => hne ⟨hS1, e⟩
        rw [if_pos hS1, mem_removeFirst_of_ne hT1]
      · rw [if_neg hS1]
    · rw [Bool.eq_iff_iff, isLinkedTo_iff, isLinkedTo_iff, hsigs]
      by_cases hT1 : T1 = T
      · have hS1 : S1 ≠ S := fun e => hne ⟨e, hT1⟩
        rw [if_pos hT1, mem_removeFirst_of_ne hS1]
      · rw [if_neg hT1]

/-- Witness for `removeSlot_removes_one_link`: in `fanIn` slot 0 is removed from signal 0,
whose sequence `[2, 0]` becomes `[2]`. -/
theorem removeSlot_removes_one_link_witness :
    (signal.removeSlot 0 (some 0) fanIn).slots_ 0 = [2] ∧
    (signal.removeSlot 0 (some 0) fanIn = slot.unlink 0 0 fanIn ∧
    signal.contains 0 0 (signal.removeSlot 0 (some 0) fanIn) = false ∧
    slot.isLinkedTo 0 0 (signal.removeSlot 0 (some 0) fanIn) = false ∧
    signal.size 0 (signal.removeSlot 0 (some 0) fanIn) + 1 = signal.size 0 fanIn ∧
    (∀ S1 T1, ¬ (S1 = 0 ∧ T1 = 0) →
      signal.contains S1 T1 (signal.removeSlot 0 (some 0) fanIn) =
        signal.contains S1 T1 fanIn ∧
      slot.isLinkedTo T1 S1 (signal.removeSlot 0 (some 0) fanIn) =
        slot.isLinkedTo T1 S1 fanIn)) :=
  ⟨by decide,
   removeSlot_removes_one_link fanIn 0 0 fanIn_symmetric fanIn_duplicateFree (by decide)⟩

/-! ## Bulk removal: `clear` and `unlinkAll` -/

theorem destroySignal_heap {Cb : Type} {S : Nat} {w w1 : World Cb}
    (ha : (Op.destroySignal S).apply w = some w1) : w1.heap = signal.clear S w.heap := by
  simp only [Op.apply] at ha
  split at ha
  · simp at ha
    rw [← ha]
  · simp at ha

theorem destroySlot_heap {Cb : Type} {T : Nat} {w w1 : World Cb}
    (ha : (Op.destroySlot T).apply w = some w1) : w1.heap = slot.unlinkAll T w.heap := by
  simp only [Op.apply] at ha
  split at ha
  · simp at ha
    rw [← ha]
  · simp at ha

theorem clear_unlinks_signal {Cb : Type} {h : Heap Cb} (hsym : Symmetric h)
    (hn : SlotListsNodup h) (S : Nat) :
    signal.size S (signal.clear S h) = 0 ∧
    signal.containsSlots S (signal.clear S h) = false ∧
    (∀ T, slot.isLinkedTo T S (signal.clear S h) = false) ∧
    (∀ S1 T, S1 ≠ S →
      slot.isLinkedTo T S1 (signal.clear S h) = slot.isLinkedTo T S1 h ∧
      signal.contains S1 T (signal.clear S h) = signal.contains S1 T h) := by
  refine ⟨by simp [signal.size, clear_slots], by simp [signal.containsSlots, clear_slots], ?_, ?_⟩
  · intro T
    rw [Bool.eq_false_iff]
    intro hc
    rw [isLinkedTo_iff, clear_signals] at hc
    have hS : S ∈ h.signals_ T := mem_of_mem_iterate_removeFirst hc
    have hT : T ∈ h.slots_ S := ((symmetric_iff h).mp hsym S T).mpr hS
    rw [iterate_removeFirst_eq (count_le_one_of_nodup (hn T) S) (List.count_pos_iff.mpr hT)] at hc
    exact not_mem_removeFirst (hn T) hc
  · intro S1 T hS1
    constructor
    · rw [Bool.eq_iff_iff, isLinkedTo_iff, isLinkedTo_iff, clear_signals,
        mem_iterate_removeFirst_of_ne hS1]
    · rw [Bool.eq_iff_iff, contains_iff, contains_iff, clear_slots, upd_other _ _ hS1]

/-- C12: in every world a client program can reach and in which link symmetry holds, for
every signal `S`: after `S.clear()`, `S.size()` is 0, `S.containsSlots()` is false and
`T.isLinked(&S)` is false for every slot `T`, while for every other signal `S1` and every
slot `T` the values of `T.isLinked(&S1)` and `S1.contains(&T)` are unchanged; the destructor
of `S` leaves exactly the heap that `S.clear()` leaves. -/
theorem clear_removes_all_links_of_signal {Cb : Type} (w : World Cb) (hw : Reachable w)
    (hsym : Symmetric w.heap) (S : Nat) :
    signal.size S (signal.clear S w.heap) = 0 ∧
    signal.containsSlots S (signal.clear S w.heap) = false ∧
    (∀ T, slot.isLinkedTo T S (signal.clear S w.heap) = false) ∧
    (∀ S1 T, S1 ≠ S →
      slot.isLinkedTo T S1 (signal.clear S w.heap) = slot.isLinkedTo T S1 w.heap ∧
      signal.contains S1 T (signal.clear S w.heap) = signal.contains S1 T w.heap) ∧
    (∀ w1, (Op.destroySignal S).apply w = some w1 → w1.heap = signal.clear S w.heap) :=
  have hc := clear_unlinks_signal hsym (reachable_slotListsNodup hw) S
  ⟨hc.1, hc.2.1, hc.2.2.1, hc.2.2.2, fun _ ha => destroySignal_heap ha⟩

theorem linkedWorld_symmetric : Symmetric linkedWorld.heap := by
  rw [symmetric_iff]
  intro S T
  by_cases hS : S = 0 <;> by_cases hT : T = 0 <;>
    simp [linkedWorld, run, Op.apply, World.init, Heap.fresh, World.validSlotPtr,
      signal.addSlot, signal.contains, slot.link, slot.getSignalIndex, indexOfFirst,
      signal.slotAddRef, ASSERT, upd_apply, hS, hT]

/-- Witness for `clear_removes_all_links_of_signal`: the world after `sig.addSlot(&sl)`. -/
theorem clear_removes_all_links_of_signal_witness :
    signal.size 0 (signal.clear 0 linkedWorld.heap) = 0 ∧
    signal.containsSlots 0 (signal.clear 0 linkedWorld.heap) = false ∧
    (∀ T, slot.isLinkedTo T 0 (signal.clear 0 linkedWorld.heap) = false) ∧
    (∀ S1 T, S1 ≠ 0 →
      slot.isLinkedTo T S1 (signal.clear 0 linkedWorld.heap) =
        slot.isLinkedTo T S1 linkedWorld.heap ∧
      signal.contains S1 T (signal.clear 0 linkedWorld.heap) =
        signal.contains S1 T linkedWorld.heap) ∧
    (∀ w1, (Op.destroySignal 0).apply linkedWorld = some w1 →
      w1.heap = signal.clear 0 linkedWorld.heap) :=
  clear_removes_all_links_of_signal linkedWorld linkedWorld_reachable linkedWorld_symmetric 0

theorem assignBetweenLinked_symmetric {w : World Unit}
    (hw : run assignBetweenLinked (World.init Unit) = some w) : Symmetric w.heap := by
  have hrun : run assignBetweenLinked (World.init Unit) =
      some ((run assignBetweenLinked (World.init Unit)).getD (World.init Unit)) := rfl
  rw [hrun] at hw
  cases hw
  rw [symmetric_iff]
  intro S T
  by_cases hS : S = 0 <;> by_cases h0 : T = 0 <;> by_cases h1 : T = 1 <;>
    simp [assignBetweenLinked, run, Op.apply, World.init, Heap.fresh, World.validSlotPtr,
      signal.addSlot, signal.contains, slot.link, slot.getSignalIndex, indexOfFirst,
      signal.slotAddRef, ASSERT, upd_apply, copyAssign_slots, copyAssign_signals,
      replaceFirst, hS, h0, h1]

/-- C13, evaluated on the code: in the world reached by
`sig.addSlot(&sl0); sig.addSlot(&sl1); sl1 = sl0;` link symmetry holds (the assignment onto
the still linked `sl1` left `[&sl1, &sl1]` in the signal, `sl1` lists the signal once), and
`sl1.unlinkAll()`, which is what the destructor of `sl1` runs, visits the signal once, so
one `&sl1` stays behind: `sl1` has no links left and the signal still contains it. -/
theorem unlinkAll_leaves_duplicated_entry :
    ∃ w : World Unit, ReachablePublic w ∧ Symmetric w.heap ∧ 1 ∈ w.liveSlots ∧
      slot.isLinked 1 (slot.unlinkAll 1 w.heap) = false ∧
      signal.contains 0 1 (slot.unlinkAll 1 w.heap) = true :=
  ⟨_, ⟨assignBetweenLinked, by decide, rfl⟩, assignBetweenLinked_symmetric rfl, by decide,
    by decide, by decide⟩

/-- Bulk unlinking where the assignment defect has left no duplicate: in a state in which
link symmetry holds and no signal's slot sequence holds `T` more than once, after
`T.unlinkAll()`, `T.isLinked()` is false, no signal contains
`T`, every signal that contained `T` has a size smaller by exactly one, and for every other
slot `T1` and every signal `S` the values of `S.contains(&T1)` and `T1.isLinked(&S)` are
unchanged; the destructor of `T` leaves exactly the heap that `T.unlinkAll()` leaves. -/
theorem unlinkAll_removes_all_links_of_slot {Cb : Type} (h : Heap Cb) (T : Nat)
    (hsym : Symmetric h) (hone : ∀ S : Nat, (h.slots_ S).count T ≤ 1) :
    slot.isLinked T (slot.unlinkAll T h) = false ∧
    (∀ S, signal.contains S T (slot.unlinkAll T h) = false) ∧
    (∀ S, signal.contains S T h = true →
      signal.size S (slot.unlinkAll T h) + 1 = signal.size S h) ∧
    (∀ S T1, T1 ≠ T →
      signal.contains S T1 (slot.unlinkAll T h) = signal.contains S T1 h ∧
      slot.isLinkedTo T1 S (slot.unlinkAll T h) = slot.isLinkedTo T1 S h) ∧
    (∀ w w1 : World Cb, w.heap = h → (Op.destroySlot T).apply w = some w1 →
      w1.heap = slot.unlinkAll T h) := by
  refine ⟨by simp [slot.isLinked, unlinkAll_signals], ?_, ?_, ?_, ?_⟩
  · intro S
    rw [Bool.eq_false_iff]
    intro hc
    rw [contains_iff, unlinkAll_slots] at hc
    have hT : T ∈ h.slots_ S := mem_of_mem_iterate_removeFirst hc
    have hS : S ∈ h.signals_ T := ((symmetric_iff h).mp hsym S T).mp hT
    rw [iterate_removeFirst_eq (hone S) (List.count_pos_iff.mpr hS)] at hc
    exact not_mem_removeFirst_of_count_le_one (hone S) hc
  · intro S hc
    have hT : T ∈ h.slots_ S := (contains_iff S T h).mp hc
    have hS : S ∈ h.signals_ T := ((symmetric_iff h).mp hsym S T).mp hT
    simp only [signal.size]
    rw [unlinkAll_slots, iterate_removeFirst_eq (hone S) (List.count_pos_iff.mpr hS),
      removeFirst_length hT]
    have : 0 < (h.slots_ S).length := List.length_pos_of_mem hT
    omega
  · intro S T1 hT1
    constructor
    · rw [Bool.eq_iff_iff, contains_iff, contains_iff, unlinkAll_slots,
        mem_iterate_removeFirst_of_ne hT1]
    · rw [Bool.eq_iff_iff, isLinkedTo_iff, isLinkedTo_iff, unlinkAll_signals,
        upd_other _ _ hT1]
  · intro w w1 hwh ha
    rw [destroySlot_heap ha, hwh]

/-- Witness for `unlinkAll_removes_all_links_of_slot`: slot 0 of `fanIn`, linked to the
signals 0 and 1, is unlinked from both. -/
theorem unlinkAll_removes_all_links_of_slot_witness :
    (slot.unlinkAll 0 fanIn).slots_ 0 = [2] ∧ (slot.unlinkAll 0 fanIn).slots_ 1 = [] ∧
    (slot.isLinked 0 (slot.unlinkAll 0 fanIn) = false ∧
    (∀ S, signal.contains S 0 (slot.unlinkAll 0 fanIn) = false) ∧
    (∀ S, signal.contains S 0 fanIn = true →
      signal.size S (slot.unlinkAll 0 fanIn) + 1 = signal.size S fanIn) ∧
    (∀ S T1, T1 ≠ 0 →
      signal.contains S T1 (slot.unlinkAll 0 fanIn) = signal.contains S T1 fanIn ∧
      slot.isLinkedTo T1 S (slot.unlinkAll 0 fanIn) = slot.isLinkedTo T1 S fanIn) ∧
    (∀ w w1 : World Unit, w.heap = fanIn → (Op.destroySlot 0).apply w = some w1 →
      w1.heap = slot.unlinkAll 0 fanIn)) :=
  ⟨by decide, by decide,
   unlinkAll_removes_all_links_of_slot fanIn 0 fanIn_symmetric
    (fun S => count_le_one_of_nodup (fanIn_duplicateFree.1 S) 0)⟩

/-! ## One slot linked to several signals -/

theorem addSlotToAll_signals {Cb : Type} (T : Nat) :
    ∀ (L : List Nat) (h : Heap Cb), L.Nodup →
      (∀ S ∈ L, S ∉ h.signals_ T ∧ T ∉ h.slots_ S) →
      ∃ h1, addSlotToAll T L h = some h1 ∧ h1.signals_ T = h.signals_ T ++ L
  | [], h, _, _ => ⟨h, rfl, by simp⟩
  | S :: L, h, hL, hfresh => by
    obtain ⟨hS, hT⟩ := hfresh S (List.mem_cons_self S L)
    have hSL : S ∉ L := (List.nodup_cons.mp hL).1
    have hc : signal.contains S T h = false := by
      rw [Bool.eq_false_iff]
      intro hc
      exact hT ((contains_iff S T h).mp hc)
    have hadd : signal.addSlot S (some T) h =
        some ⟨upd h.slots_ S (h.slots_ S ++ [T]), upd h.signals_ T (h.signals_ T ++ [S]),
          h.callback_⟩ := by
      simp only [signal.addSlot, hc]
      exact link_of_fresh hS hT
    obtain ⟨h1, hrun, hsig⟩ := addSlotToAll_signals T L
      ⟨upd h.slots_ S (h.slots_ S ++ [T]), upd h.signals_ T (h.signals_ T ++ [S]), h.callback_⟩
      (List.nodup_cons.mp hL).2
      (by
        intro S1 hS1
        have hne : S1 ≠ S := fun e => hSL (e ▸ hS1)
        obtain ⟨hS1a, hS1b⟩ := hfresh S1 (List.mem_cons_of_mem S hS1)
        refine ⟨?_, ?_⟩
        · simp only [upd_same, List.mem_append, List.mem_singleton, not_or]
          exact ⟨hS1a, hne⟩
        · simp only [upd_other _ _ hne]
          exact hS1b)
    refine ⟨h1, ?_, ?_⟩
    · simp only [addSlotToAll, hadd, Option.bind]
      exact hrun
    · rw [hsig]
      simp

theorem removeSlotFromAll_signals {Cb : Type} (T : Nat) (R : List Nat) (h : Heap Cb) :
    (removeSlotFromAll T R h).signals_ T =
      R.foldl (fun l S => removeFirst S l) (h.signals_ T) := by
  unfold removeSlotFromAll
  induction R generalizing h with
  | nil => rfl
  | cons S R ih =>
    rw [List.foldl_cons, ih, List.foldl_cons]
    simp only [signal.removeSlot]
    rw [unlink2_signals, if_pos rfl]

theorem foldl_removeFirst_length :
    ∀ (R l : List Nat), l.Nodup → R.Nodup → (∀ S ∈ R, S ∈ l) →
      (R.foldl (fun l S => removeFirst S l) l).length + R.length = l.length
  | [], l, _, _, _ => by simp
  | S :: R, l, hl, hR, hsub => by
    have hS : S ∈ l := hsub S (List.mem_cons_self S R)
    have hSR : S ∉ R := (List.nodup_cons.mp hR).1
    have ih := foldl_removeFirst_length R (removeFirst S l) (removeFirst_nodup hl)
      (List.nodup_cons.mp hR).2
      (fun S1 hS1 =>
        (mem_removeFirst_of_ne (fun (e : S1 = S) => hSR (e ▸ hS1)) l).mpr
          (hsub S1 (List.mem_cons_of_mem S hS1)))
    rw [List.foldl_cons, List.length_cons]
    rw [removeFirst_length hS] at ih
    have : 0 < l.length := List.length_pos_of_mem hS
    omega

/-- C14: let `T` be a slot without links in a symmetric state and `L` a non-empty list of
pairwise distinct signals.  Calling `addSlot(&T)` on every signal of `L` succeeds and makes
`L` the signal list of `T`.  From there, after `removeSlot(&T)` has been called on the
signals of any list `R` of distinct signals taken from `L`, in any order, `T.isLinked()` is
true when `R` is shorter than `L` and false when `R` has the length of `L` (all of them). -/
theorem fan_in_teardown {Cb : Type} (h : Heap Cb) (T : Nat) (L : List Nat) (hL : L.Nodup)
    (hne : L ≠ []) (hsym : Symmetric h) (hfresh : slot.isLinked T h = false) :
    ∃ h1, addSlotToAll T L h = some h1 ∧ h1.signals_ T = L ∧ slot.isLinked T h1 = true ∧
      ∀ R : List Nat, R.Nodup → (∀ S ∈ R, S ∈ L) →
        (R.length < L.length → slot.isLinked T (removeSlotFromAll T R h1) = true) ∧
        (R.length = L.length → slot.isLinked T (removeSlotFromAll T R h1) = false) := by
  have hnil : h.signals_ T = [] := by
    simpa [slot.isLinked] using hfresh
  obtain ⟨h1, hrun, hsig⟩ := addSlotToAll_signals T L h hL (by
    intro S _
    have hS : S ∉ h.signals_ T := by simp [hnil]
    exact ⟨hS, fun hT => hS (((symmetric_iff h).mp hsym S T).mp hT)⟩)
  rw [hnil, List.nil_append] at hsig
  refine ⟨h1, hrun, hsig, ?_, ?_⟩
  · cases L with
    | nil => exact absurd rfl hne
    | cons S L => simp [slot.isLinked, hsig]
  · intro R hR hsub
    have hlen := foldl_removeFirst_length R (h1.signals_ T) (hsig ▸ hL) hR (hsig ▸ hsub)
    rw [← removeSlotFromAll_signals, hsig] at hlen
    constructor
    · intro hlt
      cases hr : (removeSlotFromAll T R h1).signals_ T with
      | nil => rw [hr] at hlen; simp at hlen; omega
      | cons a l => simp [slot.isLinked, hr]
    · intro heq
      cases hr : (removeSlotFromAll T R h1).signals_ T with
      | nil => simp [slot.isLinked, hr]
      | cons a l => rw [hr] at hlen; simp at hlen; omega

theorem fresh_symmetric (Cb : Type) : Symmetric (Heap.fresh Cb) := by
  rw [symmetric_iff]
  intro S T
  simp [Heap.fresh]

/-- Witness for `fan_in_teardown`: slot 0 is added to the signals 0, 1 and 2 of a fresh
heap, as in the test `MultipleSignalsPerSlot`. -/
theorem fan_in_teardown_witness :
    ∃ h1, addSlotToAll 0 [0, 1, 2] (Heap.fresh Unit) = some h1 ∧ h1.signals_ 0 = [0, 1, 2] ∧
      slot.isLinked 0 h1 = true ∧
      ∀ R : List Nat, R.Nodup → (∀ S ∈ R, S ∈ [0, 1, 2]) →
        (R.length < [0, 1, 2].length → slot.isLinked 0 (removeSlotFromAll 0 R h1) = true) ∧
        (R.length = [0, 1, 2].length → slot.isLinked 0 (removeSlotFromAll 0 R h1) = false) :=
  fan_in_teardown (Heap.fresh Unit) 0 [0, 1, 2] (by decide) (by decide)
    (fresh_symmetric Unit) (by decide)

/-! ## Copy there and back -/

theorem count_map_substAddr {a b : Nat} {l : List Nat} (hb : b ∉ l) :
    (l.map (substAddr a b)).count b = l.count a := by
  induction l with
  | nil => rfl
  | cons y ys ih =>
    simp only [List.mem_cons, not_or] at hb
    rw [List.map_cons, List.count_cons, List.count_cons, ih hb.2]
    by_cases hy : y = a
    · simp [substAddr, hy]
    · have hyb : ¬ y = b := fun e => hb.1 e.symm
      simp [substAddr, hy, hyb]

theorem map_substAddr_back {a b : Nat} {l : List Nat} (hb : b ∉ l) :
    (l.map (substAddr a b)).map (substAddr b a) = l := by
  induction l with
  | nil => rfl
  | cons y ys ih =>
    simp only [List.mem_cons, not_or] at hb
    rw [List.map_cons, List.map_cons, ih hb.2]
    by_cases hy : y = a
    · simp [substAddr, hy]
    · have hyb : ¬ y = b := fun e => hb.1 e.symm
      simp [substAddr, hy, hyb]

/-- C17: in a symmetric, duplicate-free state, for a slot `A` and a distinct slot `B`
without links, `B = A` followed by `A = B` gives back every signal's slot sequence and
every slot's signal list (in particular the signal list of `A`, and the empty list of `B`)
and the callback of `A`; afterwards `S.addSlot(&A)` on a signal `S` that `A` was linked to
returns the state unchanged. -/
theorem copy_round_trip {Cb : Type} (h : Heap Cb) (A B : Nat) (hAB : A ≠ B)
    (hsym : Symmetric h) (hdup : DuplicateFree h) (hB : slot.isLinked B h = false) :
    (slot.copyAssign A B (slot.copyAssign B A h)).slots_ = h.slots_ ∧
    (slot.copyAssign A B (slot.copyAssign B A h)).signals_ = h.signals_ ∧
    (slot.copyAssign A B (slot.copyAssign B A h)).signals_ A = h.signals_ A ∧
    slot.callback A (slot.copyAssign A B (slot.copyAssign B A h)) = slot.callback A h ∧
    slot.isLinked B (slot.copyAssign A B (slot.copyAssign B A h)) = false ∧
    (∀ S, slot.isLinkedTo A S h = true →
      signal.addSlot S (some A) (slot.copyAssign A B (slot.copyAssign B A h)) =
        some (slot.copyAssign A B (slot.copyAssign B A h))) := by
  have hBA : B ≠ A := fun e => hAB e.symm
  have hnil : h.signals_ B = [] := by
    simpa [slot.isLinked] using hB
  have hBnot : ∀ X, B ∉ h.slots_ X := by
    intro X hm
    have := ((symmetric_iff h).mp hsym X B).mp hm
    rw [hnil] at this
    exact List.not_mem_nil _ this
  have h1slots : ∀ X, (slot.copyAssign B A h).slots_ X = (h.slots_ X).map (substAddr A B) :=
    fun X => (substitutedInPlace_of_fields hAB hsym hdup (copyAssign_slots hAB h) X).1
  have h1sigB : (slot.copyAssign B A h).signals_ B = h.signals_ A := by
    rw [copyAssign_signals hAB, upd_other _ _ hBA, upd_same]
  have hslots : (slot.copyAssign A B (slot.copyAssign B A h)).slots_ = h.slots_ := by
    funext X
    rw [copyAssign_slots hBA, h1sigB, h1slots]
    by_cases hX : X ∈ h.signals_ A
    · rw [iterate_replaceFirst_eq_map hBA
        (by rw [count_map_substAddr (hBnot X)]; exact count_le_one_of_nodup (hdup.1 X) A)
        (List.count_pos_iff.mpr hX), map_substAddr_back (hBnot X)]
    · have hA : A ∉ h.slots_ X := fun hm => hX (((symmetric_iff h).mp hsym X A).mp hm)
      rw [List.count_eq_zero.mpr hX, map_substAddr_of_not_mem hA]
      rfl
  have hsigs : (slot.copyAssign A B (slot.copyAssign B A h)).signals_ = h.signals_ := by
    funext X
    rw [copyAssign_signals hBA, h1sigB, copyAssign_signals hAB]
    by_cases hXB : X = B
    · subst hXB
      rw [upd_same, hnil]
    · by_cases hXA : X = A
      · subst hXA
        rw [upd_other _ _ hXB, upd_same]
      · rw [upd_other _ _ hXB, upd_other _ _ hXA, upd_other _ _ hXA, upd_other _ _ hXB]
  refine ⟨hslots, hsigs, by rw [hsigs], ?_, ?_, ?_⟩
  · simp [slot.callback, copyAssign_callback hBA, copyAssign_callback hAB]
  · simp [slot.isLinked, hsigs, hnil]
  · intro S hS
    have hA : A ∈ h.slots_ S :=
      ((symmetric_iff h).mp hsym S A).mpr ((isLinkedTo_iff A S h).mp hS)
    have hc : signal.contains S A (slot.copyAssign A B (slot.copyAssign B A h)) = true := by
      rw [contains_iff, hslots]
      exact hA
    simp [signal.addSlot, hc]

/-- Witness for `copy_round_trip`: slot 0 of `fanIn` is copied into the unlinked slot 1 and
back. -/
theorem copy_round_trip_witness :
    (slot.copyAssign 0 1 (slot.copyAssign 1 0 fanIn)).slots_ = fanIn.slots_ ∧
    (slot.copyAssign 0 1 (slot.copyAssign 1 0 fanIn)).signals_ = fanIn.signals_ ∧
    (slot.copyAssign 0 1 (slot.copyAssign 1 0 fanIn)).signals_ 0 = fanIn.signals_ 0 ∧
    slot.callback 0 (slot.copyAssign 0 1 (slot.copyAssign 1 0 fanIn)) = slot.callback 0 fanIn ∧
    slot.isLinked 1 (slot.copyAssign 0 1 (slot.copyAssign 1 0 fanIn)) = false ∧
    (∀ S, slot.isLinkedTo 0 S fanIn = true →
      signal.addSlot S (some 0) (slot.copyAssign 0 1 (slot.copyAssign 1 0 fanIn)) =
        some (slot.copyAssign 0 1 (slot.copyAssign 1 0 fanIn))) :=
  copy_round_trip fanIn 0 1 (by decide) fanIn_symmetric fanIn_duplicateFree (by decide)

/-! ## What survives every operation -/

theorem mem_replaceFirst_of_ne {o n y : Nat} (hy : y ≠ o) {l : List Nat} (hm : y ∈ l) :
    y ∈ replaceFirst o n l := by
  induction l with
  | nil => exact absurd hm (List.not_mem_nil _)
  | cons z zs ih =>
    rw [replaceFirst_cons]
    by_cases hz : z = o
    · rw [if_pos hz]
      rcases List.mem_cons.mp hm with e | hzs
      · exact absurd (e.trans hz) hy
      · exact List.mem_cons_of_mem _ hzs
    · rw [if_neg hz]
      rcases List.mem_cons.mp hm with e | hzs
      · exact e ▸ List.mem_cons_self _ _
      · exact List.mem_cons_of_mem _ (ih hzs)

theorem mem_replaceFirst_new {o n : Nat} {l : List Nat} (hm : o ∈ l) :
    n ∈ replaceFirst o n l := by
  induction l with
  | nil => exact absurd hm (List.not_mem_nil _)
  | cons z zs ih =>
    rw [replaceFirst_cons]
    by_cases hz : z = o
    · rw [if_pos hz]
      exact List.mem_cons_self _ _
    · rw [if_neg hz]
      rcases List.mem_cons.mp hm with e | hzs
      · exact absurd e.symm hz
      · exact List.mem_cons_of_mem _ (ih hzs)

theorem mem_iterate_replaceFirst_of_ne {o n y : Nat} (hy : y ≠ o) (k : Nat) {l : List Nat}
    (hm : y ∈ l) : y ∈ (replaceFirst o n)^[k] l := by
  induction k generalizing l with
  | zero => exact hm
  | succ k ih =>
    rw [Function.iterate_succ_apply]
    exact ih (mem_replaceFirst_of_ne hy hm)

theorem mem_iterate_replaceFirst_new {o n : Nat} (hon : o ≠ n) {k : Nat} (hk : 0 < k)
    {l : List Nat} (hm : o ∈ l) : n ∈ (replaceFirst o n)^[k] l := by
  obtain ⟨m, rfl⟩ : ∃ m, k = m + 1 := ⟨k - 1, by omega⟩
  rw [Function.iterate_succ_apply]
  exact mem_iterate_replaceFirst_of_ne (fun e => hon e.symm) m (mem_replaceFirst_new hm)

theorem iterate_replaceFirst_nil (o n k : Nat) : (replaceFirst o n)^[k] [] = [] :=
  Function.iterate_fixed rfl k

theorem iterate_removeFirst_nil (x k : Nat) : (removeFirst x)^[k] [] = [] :=
  Function.iterate_fixed rfl k

/-- Relocating `A` into a distinct `B` keeps "linked implies contained". -/
theorem linkedImpliesContained_relocate {Cb : Type} {h h1 : Heap Cb} {A B : Nat} (hAB : A ≠ B)
    (hJ : LinkedImpliesContained h)
    (hsig : h1.signals_ = upd (upd h.signals_ B (h.signals_ A)) A [])
    (hslots : ∀ X, h1.slots_ X = (replaceFirst A B)^[(h.signals_ A).count X] (h.slots_ X)) :
    LinkedImpliesContained h1 := by
  intro T S hS
  rw [hsig] at hS
  rw [hslots]
  by_cases hTA : T = A
  · subst hTA
    rw [upd_same] at hS
    exact absurd hS (List.not_mem_nil _)
  · rw [upd_other _ _ hTA] at hS
    by_cases hTB : T = B
    · subst hTB
      rw [upd_same] at hS
      exact mem_iterate_replaceFirst_new hAB (List.count_pos_iff.mpr hS) (hJ A S hS)
    · rw [upd_other _ _ hTB] at hS
      exact mem_iterate_replaceFirst_of_ne hTA _ (hJ T S hS)

theorem linkedImpliesContained_link {Cb : Type} {h h1 : Heap Cb} {T S : Nat}
    (hJ : LinkedImpliesContained h) (hl : slot.link T S h = some h1) :
    LinkedImpliesContained h1 := by
  by_cases hS : S ∈ h.signals_ T
  · rw [link_of_linked hS] at hl
    cases hl
    exact hJ
  · unfold slot.link slot.getSignalIndex at hl
    rw [indexOfFirst_eq_none.mpr hS] at hl
    obtain ⟨_, rfl⟩ := slotAddRef_eq_some hl
    intro T1 S1 hS1
    simp only [upd_apply] at hS1 ⊢
    by_cases hT1 : T1 = T
    · subst hT1
      rw [if_pos rfl] at hS1
      rcases List.mem_append.mp hS1 with hold | hnew
      · have := hJ T1 S1 hold
        split
        · rename_i hS1S
          exact List.mem_append_left _ (hS1S ▸ this)
        · exact this
      · have hS1S : S1 = S := by simpa using hnew
        rw [if_pos hS1S]
        exact List.mem_append_right _ (by simp)
    · rw [if_neg hT1] at hS1
      have := hJ T1 S1 hS1
      split
      · rename_i hS1S
        exact List.mem_append_left _ (hS1S ▸ this)
      · exact this

theorem linkedImpliesContained_unlink2 {Cb : Type} {h : Heap Cb}
    (hJ : LinkedImpliesContained h) (hn : SlotListsNodup h) (T S : Nat) :
    LinkedImpliesContained (slot.unlink2 T S true h) := by
  intro T1 S1 hS1
  rw [unlink2_signals] at hS1
  rw [unlink2_slots]
  by_cases hT1 : T1 = T
  · subst hT1
    rw [if_pos rfl] at hS1
    have hne : S1 ≠ S := fun e => not_mem_removeFirst (hn T1) (e ▸ hS1)
    have hold : S1 ∈ h.signals_ T1 := mem_of_mem_removeFirst hS1
    rw [if_neg (fun hc => hne hc.2.2)]
    exact hJ T1 S1 hold
  · rw [if_neg hT1] at hS1
    split
    · exact (mem_removeFirst_of_ne hT1 _).mpr (hJ T1 S1 hS1)
    · exact hJ T1 S1 hS1

theorem linkedImpliesContained_unlinkAll {Cb : Type} {h : Heap Cb}
    (hJ : LinkedImpliesContained h) (T : Nat) :
    LinkedImpliesContained (slot.unlinkAll T h) := by
  intro T1 S1 hS1
  rw [unlinkAll_signals] at hS1
  rw [unlinkAll_slots]
  by_cases hT1 : T1 = T
  · subst hT1
    rw [upd_same] at hS1
    exact absurd hS1 (List.not_mem_nil _)
  · rw [upd_other _ _ hT1] at hS1
    exact (mem_iterate_removeFirst_of_ne hT1 _ _).mpr (hJ T1 S1 hS1)

theorem linkedImpliesContained_clear {Cb : Type} {h : Heap Cb}
    (hJ : LinkedImpliesContained h) (hn : SlotListsNodup h) (S : Nat) :
    LinkedImpliesContained (signal.clear S h) := by
  intro T1 S1 hS1
  rw [clear_signals] at hS1
  rw [clear_slots]
  have hold : S1 ∈ h.signals_ T1 := mem_of_mem_iterate_removeFirst hS1
  by_cases hS1S : S1 = S
  · subst hS1S
    rw [iterate_removeFirst_eq (count_le_one_of_nodup (hn T1) S1)
      (List.count_pos_iff.mpr (hJ T1 S1 hold))] at hS1
    exact absurd hS1 (not_mem_removeFirst (hn T1))
  · rw [upd_other _ _ hS1S]
    exact hJ T1 S1 hold

/-! ## Case analysis of one client statement -/

theorem link_eq_some_cases {Cb : Type} {T S : Nat} {h h1 : Heap Cb}
    (hl : slot.link T S h = some h1) :
    h1 = h ∨ (S ∉ h.signals_ T ∧ T ∉ h.slots_ S ∧
      h1 = ⟨upd h.slots_ S (h.slots_ S ++ [T]), upd h.signals_ T (h.signals_ T ++ [S]),
        h.callback_⟩) := by
  by_cases hS : S ∈ h.signals_ T
  · rw [link_of_linked hS] at hl
    cases hl
    exact Or.inl rfl
  · unfold slot.link slot.getSignalIndex at hl
    rw [indexOfFirst_eq_none.mpr hS] at hl
    obtain ⟨hT, rfl⟩ := slotAddRef_eq_some hl
    exact Or.inr ⟨hS, hT, rfl⟩

theorem addSlot_eq_some_cases {Cb : Type} {S : Nat} {T : Option Nat} {h h1 : Heap Cb}
    (ha : signal.addSlot S T h = some h1) :
    h1 = h ∨ ∃ t, T = some t ∧ slot.link t S h = some h1 := by
  unfold signal.addSlot at ha
  cases T with
  | none =>
    simp at ha
    exact Or.inl ha.symm
  | some t =>
    simp only at ha
    split at ha
    · simp at ha
      exact Or.inl ha.symm
    · exact Or.inr ⟨t, rfl, ha⟩

/-- To establish a relation `Q` between a client statement, the world before and the world
after, it suffices to establish it for each kind of statement that changes the heap, on
the heap operation the statement runs. -/
theorem apply_cases {Cb : Type} (Q : Op Cb → World Cb → World Cb → Prop)
    (hSame : ∀ (op : Op Cb) (w : World Cb), Q op w w)
    (hNewSignal : ∀ (w : World Cb) (S : Nat), S ∉ w.liveSignals →
      Q (.newSignal S) w
        ⟨⟨upd w.heap.slots_ S [], w.heap.signals_, w.heap.callback_⟩,
          S :: w.liveSignals, w.liveSlots⟩)
    (hNewSlot : ∀ (w : World Cb) (T : Nat) (cb : Option Cb), T ∉ w.liveSlots →
      Q (.newSlot T cb) w
        ⟨⟨w.heap.slots_, upd w.heap.signals_ T [], upd w.heap.callback_ T cb⟩,
          w.liveSignals, T :: w.liveSlots⟩)
    (hCopyConstruct : ∀ (w : World Cb) (T src : Nat), T ∉ w.liveSlots → src ∈ w.liveSlots →
      Q (.copyConstruct T src) w
        ⟨slot.copyConstruct T src w.heap, w.liveSignals, T :: w.liveSlots⟩)
    (hMoveConstruct : ∀ (w : World Cb) (r : Option Cb) (T src : Nat), T ∉ w.liveSlots →
      src ∈ w.liveSlots →
      Q (.moveConstruct r T src) w
        ⟨slot.moveConstruct r T src w.heap, w.liveSignals, T :: w.liveSlots⟩)
    (hCopyAssign : ∀ (w : World Cb) (T src : Nat), T ∈ w.liveSlots → src ∈ w.liveSlots →
      Q (.copyAssign T src) w ⟨slot.copyAssign T src w.heap, w.liveSignals, w.liveSlots⟩)
    (hMoveAssign : ∀ (w : World Cb) (r : Option Cb) (T src : Nat), T ∈ w.liveSlots →
      src ∈ w.liveSlots →
      Q (.moveAssign r T src) w ⟨slot.moveAssign r T src w.heap, w.liveSignals, w.liveSlots⟩)
    (hSetCallback : ∀ (w : World Cb) (T : Nat) (cb : Option Cb), T ∈ w.liveSlots →
      Q (.setCallback T cb) w ⟨slot.setCallback T cb w.heap, w.liveSignals, w.liveSlots⟩)
    (hLink : ∀ (op : Op Cb) (w : World Cb) (T S : Nat) (h1 : Heap Cb), T ∈ w.liveSlots →
      S ∈ w.liveSignals → slot.link T S w.heap = some h1 →
      (op = .link T S ∨ op = .addSlot S (some T)) →
      Q op w ⟨h1, w.liveSignals, w.liveSlots⟩)
    (hUnlink : ∀ (op : Op Cb) (w : World Cb) (T S : Nat), T ∈ w.liveSlots →
      S ∈ w.liveSignals → (op = .unlink T S ∨ op = .removeSlot S (some T)) →
      Q op w ⟨slot.unlink2 T S true w.heap, w.liveSignals, w.liveSlots⟩)
    (hUnlinkAll : ∀ (w : World Cb) (T : Nat), T ∈ w.liveSlots →
      Q (.unlinkAll T) w ⟨slot.unlinkAll T w.heap, w.liveSignals, w.liveSlots⟩)
    (hClear : ∀ (w : World Cb) (S : Nat), S ∈ w.liveSignals →
      Q (.clear S) w ⟨signal.clear S w.heap, w.liveSignals, w.liveSlots⟩)
    (hDestroySignal : ∀ (w : World Cb) (S : Nat), S ∈ w.liveSignals →
      Q (.destroySignal S) w
        ⟨signal.clear S w.heap, w.liveSignals.filter (fun x => x != S), w.liveSlots⟩)
    (hDestroySlot : ∀ (w : World Cb) (T : Nat), T ∈ w.liveSlots →
      Q (.destroySlot T) w
        ⟨slot.unlinkAll T w.heap, w.liveSignals, w.liveSlots.filter (fun x => x != T)⟩)
    (op : Op Cb) (w w1 : World Cb) (ha : op.apply w = some w1) : Q op w w1 := by
  cases op with
  | newSignal S =>
    simp only [Op.apply] at ha
    split at ha
    · simp at ha
    · rename_i hS
      simp at ha; subst ha; exact hNewSignal w S hS
  | newSlot T cb =>
    simp only [Op.apply] at ha
    split at ha
    · simp at ha
    · rename_i hT
      simp at ha; subst ha; exact hNewSlot w T cb hT
  | copyConstruct T src =>
    simp only [Op.apply] at ha
    split at ha
    · rename_i hc
      simp at ha; subst ha; exact hCopyConstruct w T src hc.1 hc.2
    · simp at ha
  | moveConstruct r T src =>
    simp only [Op.apply] at ha
    split at ha
    · rename_i hc
      simp at ha; subst ha; exact hMoveConstruct w r T src hc.1 hc.2
    · simp at ha
  | copyAssign T src =>
    simp only [Op.apply] at ha
    split at ha
    · rename_i hc
      simp at ha; subst ha; exact hCopyAssign w T src hc.1 hc.2
    · simp at ha
  | moveAssign r T src =>
    simp only [Op.apply] at ha
    split at ha
    · rename_i hc
      simp at ha; subst ha; exact hMoveAssign w r T src hc.1 hc.2
    · simp at ha
  | setCallback T cb =>
    simp only [Op.apply] at ha
    split at ha
    · rename_i hc
      simp at ha; subst ha; exact hSetCallback w T cb hc
    · simp at ha
  | link T S =>
    simp only [Op.apply] at ha
    split at ha
    · rename_i hc
      cases hl : slot.link T S w.heap with
      | none => simp [hl] at ha
      | some h1 =>
        simp [hl] at ha; subst ha
        exact hLink _ w T S h1 hc.1 hc.2 hl (Or.inl rfl)
    · simp at ha
  | unlink T S =>
    simp only [Op.apply] at ha
    split at ha
    · rename_i hc
      simp at ha; subst ha
      exact hUnlink _ w T S hc.1 hc.2 (Or.inl rfl)
    · simp at ha
  | unlinkAll T =>
    simp only [Op.apply] at ha
    split at ha
    · rename_i hc
      simp at ha; subst ha; exact hUnlinkAll w T hc
    · simp at ha
  | addSlot S T =>
    simp only [Op.apply] at ha
    split at ha
    · rename_i hc
      cases hl : signal.addSlot S T w.heap with
      | none => simp [hl] at ha
      | some h1 =>
        simp [hl] at ha; subst ha
        rcases addSlot_eq_some_cases hl with rfl | ⟨t, rfl, hlink⟩
        · exact hSame _ w
        · exact hLink _ w t S h1 (by simpa [World.validSlotPtr] using hc.2) hc.1 hlink
            (Or.inr rfl)
    · simp at ha
  | removeSlot S T =>
    simp only [Op.apply] at ha
    split at ha
    · rename_i hc
      simp at ha; subst ha
      cases T with
      | none => exact hSame _ w
      | some t =>
        exact hUnlink _ w t S (by simpa [World.validSlotPtr] using hc.2) hc.1 (Or.inr rfl)
    · simp at ha
  | clear S =>
    simp only [Op.apply] at ha
    split at ha
    · rename_i hc
      simp at ha; subst ha; exact hClear w S hc
    · simp at ha
  | emitSignal S =>
    simp only [Op.apply] at ha
    split at ha
    · simp at ha; subst ha; exact hSame _ w
    · simp at ha
  | destroySignal S =>
    simp only [Op.apply] at ha
    split at ha
    · rename_i hc
      simp at ha; subst ha; exact hDestroySignal w S hc
    · simp at ha
  | destroySlot T =>
    simp only [Op.apply] at ha
    split at ha
    · rename_i hc
      simp at ha; subst ha; exact hDestroySlot w T hc
    · simp at ha

/-! ## Consistency of every reachable world -/

theorem removeFirst_nil (x : Nat) : removeFirst x [] = [] := rfl

theorem consistent_relocate {Cb : Type} {w : World Cb} (hc : Consistent w) {A B : Nat}
    (hAB : A ≠ B) {h1 : Heap Cb} {ls : List Nat}
    (hls : ∀ T, T ∉ ls → T ≠ B ∧ T ∉ w.liveSlots)
    (hsig : h1.signals_ = upd (upd w.heap.signals_ B (w.heap.signals_ A)) A [])
    (hslots : ∀ X, h1.slots_ X =
      (replaceFirst A B)^[(w.heap.signals_ A).count X] (w.heap.slots_ X)) :
    Consistent ⟨h1, w.liveSignals, ls⟩ := by
  obtain ⟨hN, hJ, hD1, hD2⟩ := hc
  refine ⟨?_, linkedImpliesContained_relocate hAB hJ hsig hslots, ?_, ?_⟩
  · intro X
    show (h1.signals_ X).Nodup
    rw [hsig]
    exact relocate_signals_nodup hN A B X
  · intro T hT
    obtain ⟨hTB, hTl⟩ := hls T hT
    show h1.signals_ T = []
    rw [hsig]
    by_cases hTA : T = A
    · rw [hTA, upd_same]
    · rw [upd_other _ _ hTA, upd_other _ _ hTB]
      exact hD1 T hTl
  · intro S hS
    show h1.slots_ S = []
    rw [hslots, hD2 S hS]
    exact iterate_replaceFirst_nil _ _ _

theorem consistent_assign {Cb : Type} {w : World Cb} (hc : Consistent w) {A B : Nat}
    (hB : B ∈ w.liveSlots) {h1 : Heap Cb} (hself : A = B → h1 = w.heap)
    (hsig : A ≠ B → h1.signals_ = upd (upd w.heap.signals_ B (w.heap.signals_ A)) A [])
    (hslots : A ≠ B → ∀ X, h1.slots_ X =
      (replaceFirst A B)^[(w.heap.signals_ A).count X] (w.heap.slots_ X)) :
    Consistent ⟨h1, w.liveSignals, w.liveSlots⟩ := by
  by_cases hAB : A = B
  · rw [hself hAB]
    exact hc
  · exact consistent_relocate hc hAB
      (fun T hT => ⟨fun e => hT (e ▸ hB), hT⟩) (hsig hAB) (hslots hAB)

theorem consistent_construct {Cb : Type} {w : World Cb} (hc : Consistent w) {A B : Nat}
    (hA : A ∈ w.liveSlots) (hB : B ∉ w.liveSlots) {h1 : Heap Cb}
    (hsig : h1.signals_ = upd (upd w.heap.signals_ B (w.heap.signals_ A)) A [])
    (hslots : A ≠ B → ∀ X, h1.slots_ X =
      (replaceFirst A B)^[(w.heap.signals_ A).count X] (w.heap.slots_ X)) :
    Consistent ⟨h1, w.liveSignals, B :: w.liveSlots⟩ := by
  have hAB : A ≠ B := fun e => hB (e ▸ hA)
  refine consistent_relocate hc hAB ?_ hsig (hslots hAB)
  intro T hT
  simp only [List.mem_cons, not_or] at hT
  exact hT

theorem not_mem_filter_ne {l : List Nat} {a x : Nat} (hx : x ∉ l.filter (fun y => y != a)) :
    x = a ∨ x ∉ l := by
  by_cases hxa : x = a
  · exact Or.inl hxa
  · right
    intro hm
    exact hx (List.mem_filter.mpr ⟨hm, by simpa using hxa⟩)

/-- One client statement keeps a consistent world consistent. -/
theorem apply_consistent {Cb : Type} (op : Op Cb) (w w1 : World Cb) (hc : Consistent w)
    (ha : op.apply w = some w1) : Consistent w1 := by
  refine apply_cases (fun _ w w1 => Consistent w → Consistent w1) (fun _ _ hc => hc)
    ?_ ?_ ?_ ?_ ?_ ?_ ?_ ?_ ?_ ?_ ?_ ?_ ?_ op w w1 ha hc
  · -- newSignal
    intro w S hS ⟨hN, hJ, hD1, hD2⟩
    refine ⟨hN, ?_, hD1, ?_⟩
    · intro T S1 hS1
      have hT := hJ T S1 hS1
      show T ∈ upd w.heap.slots_ S [] S1
      by_cases hSS : S1 = S
      · rw [hSS, hD2 S hS] at hT
        exact absurd hT (List.not_mem_nil _)
      · rw [upd_other _ _ hSS]
        exact hT
    · intro S1 hS1
      simp only [List.mem_cons, not_or] at hS1
      show upd w.heap.slots_ S [] S1 = []
      rw [upd_other _ _ hS1.1]
      exact hD2 S1 hS1.2
  · -- newSlot
    intro w T cb _ ⟨hN, hJ, hD1, hD2⟩
    refine ⟨nodup_upd hN T List.nodup_nil, ?_, ?_, hD2⟩
    · intro T1 S1 hS1
      have hS1b : S1 ∈ upd w.heap.signals_ T [] T1 := hS1
      by_cases hTT : T1 = T
      · rw [hTT, upd_same] at hS1b
        exact absurd hS1b (List.not_mem_nil _)
      · rw [upd_other _ _ hTT] at hS1b
        exact hJ T1 S1 hS1b
    · intro T1 hT1
      simp only [List.mem_cons, not_or] at hT1
      show upd w.heap.signals_ T [] T1 = []
      rw [upd_other _ _ hT1.1]
      exact hD1 T1 hT1.2
  · -- copyConstruct
    intro w T src hT hsrc hc
    exact consistent_construct hc hsrc hT (copyConstruct_signals src T w.heap)
      (fun hAB => copyConstruct_slots hAB w.heap)
  · -- moveConstruct
    intro w r T src hT hsrc hc
    exact consistent_construct hc hsrc hT (moveConstruct_signals src T r w.heap)
      (fun hAB => moveConstruct_slots hAB r w.heap)
  · -- copyAssign
    intro w T src hT _ hc
    exact consistent_assign hc hT (fun e => by simp [slot.copyAssign, e])
      (fun hAB => copyAssign_signals hAB w.heap) (fun hAB => copyAssign_slots hAB w.heap)
  · -- moveAssign
    intro w r T src hT _ hc
    exact consistent_assign hc hT (fun e => by simp [slot.moveAssign, e])
      (fun hAB => moveAssign_signals hAB r w.heap) (fun hAB => moveAssign_slots hAB r w.heap)
  · -- setCallback
    intro w T cb _ hc
    exact hc
  · -- link, addSlot
    intro _ w T S h1 hT hS hl _ ⟨hN, hJ, hD1, hD2⟩
    refine ⟨link_slotListsNodup hN hl, linkedImpliesContained_link hJ hl, ?_, ?_⟩
    · intro T1 hT1
      show h1.signals_ T1 = []
      rcases link_eq_some_cases hl with rfl | ⟨_, _, rfl⟩
      · exact hD1 T1 hT1
      · have hne : T1 ≠ T := fun e => hT1 (e ▸ hT)
        simp only [upd_other _ _ hne]
        exact hD1 T1 hT1
    · intro S1 hS1
      show h1.slots_ S1 = []
      rcases link_eq_some_cases hl with rfl | ⟨_, _, rfl⟩
      · exact hD2 S1 hS1
      · have hne : S1 ≠ S := fun e => hS1 (e ▸ hS)
        simp only [upd_other _ _ hne]
        exact hD2 S1 hS1
  · -- unlink, removeSlot
    intro _ w T S _ _ _ ⟨hN, hJ, hD1, hD2⟩
    refine ⟨unlink2_slotListsNodup hN T S true, linkedImpliesContained_unlink2 hJ hN T S,
      ?_, ?_⟩
    · intro T1 hT1
      show (slot.unlink2 T S true w.heap).signals_ T1 = []
      rw [unlink2_signals, hD1 T1 hT1]
      simp [removeFirst_nil]
    · intro S1 hS1
      show (slot.unlink2 T S true w.heap).slots_ S1 = []
      rw [unlink2_slots, hD2 S1 hS1]
      simp [removeFirst_nil]
  · -- unlinkAll
    intro w T _ ⟨hN, hJ, hD1, hD2⟩
    refine ⟨unlinkAll_slotListsNodup hN T, linkedImpliesContained_unlinkAll hJ T, ?_, ?_⟩
    · intro T1 hT1
      show (slot.unlinkAll T w.heap).signals_ T1 = []
      rw [unlinkAll_signals, upd_apply]
      split
      · rfl
      · exact hD1 T1 hT1
    · intro S1 hS1
      show (slot.unlinkAll T w.heap).slots_ S1 = []
      rw [unlinkAll_slots, hD2 S1 hS1]
      exact iterate_removeFirst_nil _ _
  · -- clear
    intro w S _ ⟨hN, hJ, hD1, hD2⟩
    refine ⟨clear_slotListsNodup hN S, linkedImpliesContained_clear hJ hN S, ?_, ?_⟩
    · intro T1 hT1
      show (signal.clear S w.heap).signals_ T1 = []
      rw [clear_signals, hD1 T1 hT1]
      exact iterate_removeFirst_nil _ _
    · intro S1 hS1
      show (signal.clear S w.heap).slots_ S1 = []
      rw [clear_slots, upd_apply]
      split
      · rfl
      · exact hD2 S1 hS1
  · -- destroySignal
    intro w S _ ⟨hN, hJ, hD1, hD2⟩
    refine ⟨clear_slotListsNodup hN S, linkedImpliesContained_clear hJ hN S, ?_, ?_⟩
    · intro T1 hT1
      show (signal.clear S w.heap).signals_ T1 = []
      rw [clear_signals, hD1 T1 hT1]
      exact iterate_removeFirst_nil _ _
    · intro S1 hS1
      show (signal.clear S w.heap).slots_ S1 = []
      rw [clear_slots, upd_apply]
      split
      · rfl
      · rcases not_mem_filter_ne hS1 with e | hdead
        · contradiction
        · exact hD2 S1 hdead
  · -- destroySlot
    intro w T _ ⟨hN, hJ, hD1, hD2⟩
    refine ⟨unlinkAll_slotListsNodup hN T, linkedImpliesContained_unlinkAll hJ T, ?_, ?_⟩
    · intro T1 hT1
      show (slot.unlinkAll T w.heap).signals_ T1 = []
      rw [unlinkAll_signals, upd_apply]
      split
      · rfl
      · rcases not_mem_filter_ne hT1 with e | hdead
        · contradiction
        · exact hD1 T1 hdead
    · intro S1 hS1
      show (slot.unlinkAll T w.heap).slots_ S1 = []
      rw [unlinkAll_slots, hD2 S1 hS1]
      exact iterate_removeFirst_nil _ _

theorem run_consistent {Cb : Type} (ops : List (Op Cb)) (w w1 : World Cb) (hc : Consistent w)
    (hr : run ops w = some w1) : Consistent w1 := by
  induction ops generalizing w with
  | nil =>
    simp [run] at hr
    exact hr ▸ hc
  | cons op ops ih =>
    simp only [run] at hr
    cases ha : op.apply w with
    | none => simp [ha] at hr
    | some w2 =>
      rw [ha] at hr
      exact ih w2 (apply_consistent op w w2 hc ha) hr

theorem init_consistent (Cb : Type) : Consistent (World.init Cb) :=
  ⟨fun _ => List.nodup_nil, fun _ _ hS => absurd hS (List.not_mem_nil _),
    fun _ _ => rfl, fun _ _ => rfl⟩

theorem reachable_consistent {Cb : Type} {w : World Cb} (hw : Reachable w) : Consistent w := by
  obtain ⟨ops, hr⟩ := hw
  exact run_consistent ops (World.init Cb) w (init_consistent Cb) hr

theorem reachable_of_reachablePublic {Cb : Type} {w : World Cb} (hw : ReachablePublic w) :
    Reachable w := by
  obtain ⟨ops, _, hr⟩ := hw
  exact ⟨ops, hr⟩

theorem reachable_linked_implies_contained {Cb : Type} {w : World Cb} (hw : Reachable w)
    (T S : Nat) :
    (slot.isLinkedTo T S w.heap = true → signal.contains S T w.heap = true) ∧
      (w.heap.signals_ T).count S ≤ 1 := by
  obtain ⟨hN, hJ, _⟩ := reachable_consistent hw
  refine ⟨?_, count_le_one_of_nodup (hN T) S⟩
  intro hl
  rw [contains_iff]
  exact hJ T S ((isLinkedTo_iff T S w.heap).mp hl)

/-- C19: in every world reachable by constructors and public operations (assignments onto
slots that still have links included), for every slot `T` and signal `S`, `T.isLinked(&S)`
implies `S.contains(&T)`, and `S` occurs at most once in the signal list of `T`. -/
theorem linked_implies_contained_in_reachable_worlds {Cb : Type} (w : World Cb)
    (hw : ReachablePublic w) (T S : Nat) :
    (slot.isLinkedTo T S w.heap = true → signal.contains S T w.heap = true) ∧
      (w.heap.signals_ T).count S ≤ 1 :=
  reachable_linked_implies_contained (reachable_of_reachablePublic hw) T S

theorem assignedBetweenLinkedWorld_reachablePublic :
    ReachablePublic assignedBetweenLinkedWorld :=
  ⟨assignBetweenLinked, by decide, rfl⟩

/-- Witness for `linked_implies_contained_in_reachable_worlds`: the world after
`sig.addSlot(&sl0); sig.addSlot(&sl1); sl1 = sl0;`, an assignment onto a slot that still
has links.  There `sl1` is linked to the signal, which the theorem turns into
`sig.contains(&sl1)`, and the signal occurs exactly once in the signal list of `sl1`. -/
theorem linked_implies_contained_in_reachable_worlds_witness :
    slot.isLinkedTo 1 0 assignedBetweenLinkedWorld.heap = true ∧
    (assignedBetweenLinkedWorld.heap.signals_ 1).count 0 = 1 ∧
    ((slot.isLinkedTo 1 0 assignedBetweenLinkedWorld.heap = true →
        signal.contains 0 1 assignedBetweenLinkedWorld.heap = true) ∧
      (assignedBetweenLinkedWorld.heap.signals_ 1).count 0 ≤ 1) ∧
    signal.contains 0 1 assignedBetweenLinkedWorld.heap = true :=
  ⟨by decide, by decide,
   linked_implies_contained_in_reachable_worlds assignedBetweenLinkedWorld
    assignedBetweenLinkedWorld_reachablePublic 1 0,
   (linked_implies_contained_in_reachable_worlds assignedBetweenLinkedWorld
    assignedBetweenLinkedWorld_reachablePublic 1 0).1 (by decide)⟩

/-! ## Symmetry and duplicate-freedom, one statement at a time -/

theorem wellLinked_iff {Cb : Type} (h : Heap Cb) :
    WellLinked h ↔ (∀ S T : Nat, T ∈ h.slots_ S ↔ S ∈ h.signals_ T) ∧
      (∀ S : Nat, (h.slots_ S).Nodup) ∧ (∀ T : Nat, (h.signals_ T).Nodup) := by
  unfold WellLinked DuplicateFree
  rw [symmetric_iff]

theorem wellLinked_congr {Cb : Type} {h h1 : Heap Cb} (hg : WellLinked h)
    (hslots : h1.slots_ = h.slots_) (hsig : h1.signals_ = h.signals_) : WellLinked h1 := by
  rw [wellLinked_iff] at hg ⊢
  rw [hslots, hsig]
  exact hg

theorem mem_removeFirst_iff {x y : Nat} {l : List Nat} (hl : l.Nodup) :
    y ∈ removeFirst x l ↔ y ≠ x ∧ y ∈ l := by
  rw [(removeFirst_perm_erase x l).mem_iff]
  exact hl.mem_erase_iff

theorem mem_map_substAddr_iff {a b y : Nat} (hab : a ≠ b) {l : List Nat} (hb : b ∉ l) :
    y ∈ l.map (substAddr a b) ↔ (y = b ∧ a ∈ l) ∨ (y ≠ a ∧ y ∈ l) := by
  constructor
  · intro hy
    obtain ⟨x, hx, hxy⟩ := List.mem_map.mp hy
    unfold substAddr at hxy
    by_cases hxa : x = a
    · rw [if_pos hxa] at hxy
      exact Or.inl ⟨hxy.symm, hxa ▸ hx⟩
    · rw [if_neg hxa] at hxy
      exact Or.inr ⟨hxy ▸ hxa, hxy ▸ hx⟩
  · rintro (⟨rfl, ha⟩ | ⟨hya, hy⟩)
    · exact mem_map_substAddr_of_mem ha
    · exact List.mem_map.mpr ⟨y, hy, by simp [substAddr, hya]⟩

theorem nodup_map_substAddr {a b : Nat} {l : List Nat} (hl : l.Nodup) (hb : b ∉ l) :
    (l.map (substAddr a b)).Nodup := by
  refine List.Nodup.map_on ?_ hl
  intro x hx y hy hxy
  unfold substAddr at hxy
  by_cases hxa : x = a <;> by_cases hya : y = a
  · rw [hxa, hya]
  · rw [if_pos hxa, if_neg hya] at hxy
    exact absurd (hxy ▸ hy) hb
  · rw [if_neg hxa, if_pos hya] at hxy
    exact absurd (hxy ▸ hx) hb
  · rw [if_neg hxa, if_neg hya] at hxy
    exact hxy

/-- Relocating `A` into a distinct slot `B` that has no links keeps a well-linked heap
well-linked. -/
theorem wellLinked_relocate {Cb : Type} {h h1 : Heap Cb} {A B : Nat} (hg : WellLinked h)
    (hAB : A ≠ B) (hB : h.signals_ B = [])
    (hsig : h1.signals_ = upd (upd h.signals_ B (h.signals_ A)) A [])
    (hslots : ∀ X, h1.slots_ X = (replaceFirst A B)^[(h.signals_ A).count X] (h.slots_ X)) :
    WellLinked h1 := by
  have hmap : ∀ X, h1.slots_ X = (h.slots_ X).map (substAddr A B) :=
    fun X => (substitutedInPlace_of_fields hAB hg.1 hg.2 hslots X).1
  obtain ⟨hsym, hds, hdt⟩ := (wellLinked_iff h).mp hg
  have hBnot : ∀ X, B ∉ h.slots_ X := by
    intro X hm
    have := (hsym X B).mp hm
    rw [hB] at this
    exact List.not_mem_nil _ this
  rw [wellLinked_iff]
  refine ⟨?_, ?_, ?_⟩
  · intro S T
    rw [hmap, hsig, mem_map_substAddr_iff hAB (hBnot S)]
    by_cases hTA : T = A
    · subst hTA
      rw [upd_same]
      constructor
      · rintro (⟨e, _⟩ | ⟨e, _⟩)
        · exact absurd e hAB
        · exact absurd rfl e
      · intro hm
        exact absurd hm (List.not_mem_nil _)
    · rw [upd_other _ _ hTA]
      by_cases hTB : T = B
      · subst hTB
        rw [upd_same, ← hsym S A]
        constructor
        · rintro (⟨_, ha⟩ | ⟨_, hb⟩)
          · exact ha
          · exact absurd hb (hBnot S)
        · intro ha
          exact Or.inl ⟨rfl, ha⟩
      · rw [upd_other _ _ hTB, ← hsym S T]
        constructor
        · rintro (⟨e, _⟩ | ⟨_, hm⟩)
          · exact absurd e hTB
          · exact hm
        · intro hm
          exact Or.inr ⟨hTA, hm⟩
  · intro S
    rw [hmap]
    exact nodup_map_substAddr (hds S) (hBnot S)
  · intro T
    rw [hsig]
    exact relocate_signals_nodup hdt A B T

theorem wellLinked_link {Cb : Type} {h h1 : Heap Cb} {T S : Nat} (hg : WellLinked h)
    (hl : slot.link T S h = some h1) : WellLinked h1 := by
  rcases link_eq_some_cases hl with rfl | ⟨hS, hT, rfl⟩
  · exact hg
  · obtain ⟨hsym, hds, hdt⟩ := (wellLinked_iff h).mp hg
    rw [wellLinked_iff]
    refine ⟨?_, ?_, ?_⟩
    · intro S1 T1
      simp only [upd_apply]
      by_cases hS1 : S1 = S <;> by_cases hT1 : T1 = T
      · simp [hS1, hT1]
      · have hne : ¬ T = T1 := fun e => hT1 e.symm
        simp [hS1, hT1, hne, hsym S T1]
      · have hne : ¬ S = S1 := fun e => hS1 e.symm
        simp [hS1, hT1, hne, hsym S1 T]
      · simp [hS1, hT1, hsym S1 T1]
    · intro S1
      refine nodup_upd hds S ?_ S1
      rw [List.nodup_append]
      exact ⟨hds S, List.nodup_singleton T, by simpa using hT⟩
    · intro T1
      refine nodup_upd hdt T ?_ T1
      rw [List.nodup_append]
      exact ⟨hdt T, List.nodup_singleton S, by simpa using hS⟩

theorem wellLinked_unlink2 {Cb : Type} {h : Heap Cb} (hg : WellLinked h) (T S : Nat) :
    WellLinked (slot.unlink2 T S true h) := by
  by_cases hS : S ∈ h.signals_ T
  · obtain ⟨hsym, hds, hdt⟩ := (wellLinked_iff h).mp hg
    rw [wellLinked_iff]
    refine ⟨?_, ?_, ?_⟩
    · intro S1 T1
      rw [unlink2_slots, unlink2_signals]
      by_cases hS1 : S1 = S <;> by_cases hT1 : T1 = T
      · subst hS1; subst hT1
        simp [hS, mem_removeFirst_iff (hds S1), mem_removeFirst_iff (hdt T1)]
      · subst hS1
        simp [hS, hT1, mem_removeFirst_iff (hds S1), hsym S1 T1]
      · subst hT1
        simp [hS1, mem_removeFirst_iff (hdt T1), hsym S1 T1]
      · simp [hS1, hT1, hsym S1 T1]
    · intro S1
      rw [unlink2_slots]
      split
      · exact removeFirst_nodup (hds S1)
      · exact hds S1
    · intro T1
      rw [unlink2_signals]
      split
      · exact removeFirst_nodup (hdt T1)
      · exact hdt T1
  · rw [unlink2_of_not_linked true hS]
    exact hg

theorem wellLinked_unlinkAll {Cb : Type} {h : Heap Cb} (hg : WellLinked h) (T : Nat) :
    WellLinked (slot.unlinkAll T h) := by
  obtain ⟨hsym, hds, hdt⟩ := (wellLinked_iff h).mp hg
  have hslots : ∀ X, (slot.unlinkAll T h).slots_ X = removeFirst T (h.slots_ X) := by
    intro X
    rw [unlinkAll_slots]
    by_cases hX : X ∈ h.signals_ T
    · exact iterate_removeFirst_eq (count_le_one_of_nodup (hds X) T)
        (List.count_pos_iff.mpr hX)
    · have hT : T ∉ h.slots_ X := fun hm => hX ((hsym X T).mp hm)
      rw [List.count_eq_zero.mpr hX, removeFirst_of_not_mem hT]
      rfl
  rw [wellLinked_iff]
  refine ⟨?_, ?_, ?_⟩
  · intro S1 T1
    rw [hslots, unlinkAll_signals, mem_removeFirst_iff (hds S1), upd_apply]
    by_cases hT1 : T1 = T
    · simp [hT1]
    · simp [hT1, hsym S1 T1]
  · intro S1
    rw [hslots]
    exact removeFirst_nodup (hds S1)
  · intro T1
    rw [unlinkAll_signals]
    exact nodup_upd hdt T List.nodup_nil T1

theorem wellLinked_clear {Cb : Type} {h : Heap Cb} (hg : WellLinked h) (S : Nat) :
    WellLinked (signal.clear S h) := by
  obtain ⟨hsym, hds, hdt⟩ := (wellLinked_iff h).mp hg
  have hsigs : ∀ X, (signal.clear S h).signals_ X = removeFirst S (h.signals_ X) := by
    intro X
    rw [clear_signals]
    by_cases hX : X ∈ h.slots_ S
    · exact iterate_removeFirst_eq (count_le_one_of_nodup (hdt X) S)
        (List.count_pos_iff.mpr hX)
    · have hS : S ∉ h.signals_ X := fun hm => hX ((hsym S X).mpr hm)
      rw [List.count_eq_zero.mpr hX, removeFirst_of_not_mem hS]
      rfl
  rw [wellLinked_iff]
  refine ⟨?_, ?_, ?_⟩
  · intro S1 T1
    rw [hsigs, clear_slots, mem_removeFirst_iff (hdt T1), upd_apply]
    by_cases hS1 : S1 = S
    · simp [hS1]
    · simp [hS1, hsym S1 T1]
  · intro S1
    rw [clear_slots]
    exact nodup_upd hds S List.nodup_nil S1
  · intro T1
    rw [hsigs]
    exact removeFirst_nodup (hdt T1)

theorem upd_eq_self {α : Type} (f : Nat → α) (i : Nat) (v : α) (hv : f i = v) :
    upd f i v = f := by
  funext j
  rw [upd_apply]
  split
  · rename_i hj
    rw [hj, hv]
  · rfl

/-- One client statement other than an assignment onto another, still linked slot keeps a
consistent, well-linked world well-linked. -/
theorem apply_wellLinked {Cb : Type} (op : Op Cb) (w w1 : World Cb) (hc : Consistent w)
    (hg : WellLinked w.heap) (hop : ¬ op.assignsOntoLinked w.heap)
    (ha : op.apply w = some w1) : WellLinked w1.heap := by
  refine apply_cases
    (fun op w w1 => Consistent w → WellLinked w.heap → ¬ op.assignsOntoLinked w.heap →
      WellLinked w1.heap)
    (fun _ _ _ hg _ => hg) ?_ ?_ ?_ ?_ ?_ ?_ ?_ ?_ ?_ ?_ ?_ ?_ ?_ op w w1 ha hc hg hop
  · -- newSignal
    intro w S hS hc hg _
    exact wellLinked_congr hg (upd_eq_self _ _ _ (hc.2.2.2 S hS)) rfl
  · -- newSlot
    intro w T cb hT hc hg _
    exact wellLinked_congr hg rfl (upd_eq_self _ _ _ (hc.2.2.1 T hT))
  · -- copyConstruct
    intro w T src hT hsrc hc hg _
    have hAB : src ≠ T := fun e => hT (e ▸ hsrc)
    exact wellLinked_relocate hg hAB (hc.2.2.1 T hT) (copyConstruct_signals src T w.heap)
      (copyConstruct_slots hAB w.heap)
  · -- moveConstruct
    intro w r T src hT hsrc hc hg _
    have hAB : src ≠ T := fun e => hT (e ▸ hsrc)
    exact wellLinked_relocate hg hAB (hc.2.2.1 T hT) (moveConstruct_signals src T r w.heap)
      (moveConstruct_slots hAB r w.heap)
  · -- copyAssign
    intro w T src _ _ _ hg hop
    by_cases hAB : src = T
    · show WellLinked (slot.copyAssign T src w.heap)
      simpa [slot.copyAssign, hAB] using hg
    · have hB : w.heap.signals_ T = [] := by
        have hnl : ¬ slot.isLinked T w.heap = true := fun hl => hop ⟨hAB, hl⟩
        simpa [slot.isLinked] using hnl
      exact wellLinked_relocate hg hAB hB (copyAssign_signals hAB w.heap)
        (copyAssign_slots hAB w.heap)
  · -- moveAssign
    intro w r T src _ _ _ hg hop
    by_cases hAB : src = T
    · show WellLinked (slot.moveAssign r T src w.heap)
      simpa [slot.moveAssign, hAB] using hg
    · have hB : w.heap.signals_ T = [] := by
        have hnl : ¬ slot.isLinked T w.heap = true := fun hl => hop ⟨hAB, hl⟩
        simpa [slot.isLinked] using hnl
      exact wellLinked_relocate hg hAB hB (moveAssign_signals hAB r w.heap)
        (moveAssign_slots hAB r w.heap)
  · -- setCallback
    intro w T cb _ _ hg _
    exact wellLinked_congr hg rfl rfl
  · -- link, addSlot
    intro _ w T S h1 _ _ hl _ _ hg _
    exact wellLinked_link hg hl
  · -- unlink, removeSlot
    intro _ w T S _ _ _ _ hg _
    exact wellLinked_unlink2 hg T S
  · -- unlinkAll
    intro w T _ _ hg _
    exact wellLinked_unlinkAll hg T
  · -- clear
    intro w S _ _ hg _
    exact wellLinked_clear hg S
  · -- destroySignal
    intro w S _ _ hg _
    exact wellLinked_clear hg S
  · -- destroySlot
    intro w T _ _ hg _
    exact wellLinked_unlinkAll hg T

/-- A program without assignments between slots keeps a consistent, well-linked world
well-linked. -/
theorem run_wellLinked {Cb : Type} (ops : List (Op Cb)) (w w1 : World Cb) (hc : Consistent w)
    (hg : WellLinked w.heap) (hops : ∀ op ∈ ops, ∀ h : Heap Cb, ¬ op.assignsOntoLinked h)
    (hr : run ops w = some w1) : WellLinked w1.heap := by
  induction ops generalizing w with
  | nil =>
    simp [run] at hr
    exact hr ▸ hg
  | cons op ops ih =>
    simp only [run] at hr
    cases ha : op.apply w with
    | none => simp [ha] at hr
    | some w2 =>
      rw [ha] at hr
      exact ih w2 (apply_consistent op w w2 hc ha)
        (apply_wellLinked op w w2 hc hg (hops op (List.mem_cons_self _ _) w.heap) ha)
        (fun op1 h1 => hops op1 (List.mem_cons_of_mem _ h1)) hr

theorem fresh_wellLinked (Cb : Type) : WellLinked (Heap.fresh Cb) :=
  ⟨fresh_symmetric Cb, fun _ => List.nodup_nil, fun _ => List.nodup_nil⟩

theorem oneLinkTwoSlotsWorld_reachable : Reachable oneLinkTwoSlotsWorld :=
  ⟨[.newSignal 0, .newSlot 0 none, .newSlot 1 none, .addSlot 0 (some 0)], rfl⟩

theorem oneLinkTwoSlotsWorld_wellLinked : WellLinked oneLinkTwoSlotsWorld.heap :=
  run_wellLinked [.newSignal 0, .newSlot 0 none, .newSlot 1 none, .addSlot 0 (some 0)]
    (World.init Unit) oneLinkTwoSlotsWorld (init_consistent Unit) (fresh_wellLinked Unit)
    (by simp [Op.assignsOntoLinked]) rfl

theorem secondSlotLinkedWorld_reachable : Reachable secondSlotLinkedWorld :=
  ⟨[.newSignal 0, .newSlot 0 none, .newSlot 1 none, .addSlot 0 (some 1)], rfl⟩

theorem secondSlotLinkedWorld_wellLinked : WellLinked secondSlotLinkedWorld.heap :=
  run_wellLinked [.newSignal 0, .newSlot 0 none, .newSlot 1 none, .addSlot 0 (some 1)]
    (World.init Unit) secondSlotLinkedWorld (init_consistent Unit) (fresh_wellLinked Unit)
    (by simp [Op.assignsOntoLinked]) rfl

/-- C20: in every world a client program can reach, if link symmetry holds and both
collections are duplicate-free, then they still do after any one client statement
(constructor, public member function, self-assignment, copy or move assignment onto a slot
without links, and also a destructor) that is not a copy or move assignment onto another
slot that still has links. -/
theorem wellLinked_preserved_unless_assigning_onto_linked {Cb : Type} (w w1 : World Cb)
    (op : Op Cb) (hw : Reachable w) (hg : Symmetric w.heap ∧ DuplicateFree w.heap)
    (hop : ¬ op.assignsOntoLinked w.heap) (ha : op.apply w = some w1) :
    Symmetric w1.heap ∧ DuplicateFree w1.heap :=
  apply_wellLinked op w w1 (reachable_consistent hw) hg hop ha

/-- Witness for `wellLinked_preserved_unless_assigning_onto_linked`: after
`sig.addSlot(&sl0)` the assignment `sl1 = sl0` has a destination without links. -/
theorem wellLinked_preserved_unless_assigning_onto_linked_witness :
    Symmetric ((Op.apply (.copyAssign 1 0) oneLinkTwoSlotsWorld).getD
        oneLinkTwoSlotsWorld).heap ∧
      DuplicateFree ((Op.apply (.copyAssign 1 0) oneLinkTwoSlotsWorld).getD
        oneLinkTwoSlotsWorld).heap :=
  wellLinked_preserved_unless_assigning_onto_linked oneLinkTwoSlotsWorld _ (.copyAssign 1 0)
    oneLinkTwoSlotsWorld_reachable oneLinkTwoSlotsWorld_wellLinked
    (fun hl => absurd hl.2 (by decide)) rfl

/-- The excluded statement does break the conjunction: after `sig.addSlot(&sl1)` the world
is well-linked, `sl1 = sl0` is an assignment onto another, still linked slot, and link
symmetry fails in the world it leaves. -/
theorem assigning_onto_linked_breaks_symmetry :
    Reachable secondSlotLinkedWorld ∧ WellLinked secondSlotLinkedWorld.heap ∧
      Op.assignsOntoLinked (.copyAssign 1 0) secondSlotLinkedWorld.heap ∧
      ∃ w1, Op.apply (.copyAssign 1 0) secondSlotLinkedWorld = some w1 ∧
        ¬ Symmetric w1.heap := by
  refine ⟨secondSlotLinkedWorld_reachable, secondSlotLinkedWorld_wellLinked,
    ⟨by decide, by decide⟩, _, rfl, ?_⟩
  intro hsym
  have h01 := hsym 0 1
  revert h01
  decide

end sigslot
